import Mathlib

/-!
Shallow embedding of the extraction-and-scoring core of the criativos-api
repository (src/utils.py, src/models.py, src/main.py, src/scraper.py),
together with proofs settling the frozen claims about it.

Strings are modelled as lists of characters (`String.data`).  Python
whitespace (the class matched by the regex \s and stripped by str.strip)
is modelled by the Unicode whitespace table used by CPython; Python case
folding is modelled on the ASCII and Latin-1 ranges, which covers every
character the embedded string constants and claims exercise.  Python
floats are modelled as real numbers, and round(x, 2) as rounding
100*x to the nearest integer.
-/

namespace Criativos

/-! ### Python character classes -/

/-- Code points treated as whitespace by CPython (str.isspace, str.strip,
and the regex class \s on str patterns). -/
def pySpaceCodes : List Nat :=
  [9, 10, 11, 12, 13, 28, 29, 30, 31, 32, 133, 160, 5760,
   8192, 8193, 8194, 8195, 8196, 8197, 8198, 8199, 8200, 8201, 8202,
   8232, 8233, 8239, 8287, 12288]

def isPySpace (c : Char) : Bool := decide (c.toNat ∈ pySpaceCodes)

/-- the character class removed by normalize_text:
ranges 0x00 to 0x1f and 0x7f to 0x9f. -/
def isPyCtrl (c : Char) : Bool :=
  c.toNat ≤ 0x1f || (0x7f ≤ c.toNat && c.toNat ≤ 0x9f)

def isPyDigit (c : Char) : Bool := 48 ≤ c.toNat && c.toNat ≤ 57

/-- Python str.lower restricted to the ASCII and Latin-1 letter ranges
(every constant in the source is covered by this range). -/
def pyToLower (c : Char) : Char :=
  let v := c.toNat
  if 65 ≤ v && v ≤ 90 then Char.ofNat (v + 32)
  else if 192 ≤ v && v ≤ 222 && v ≠ 215 then Char.ofNat (v + 32)
  else c

def lowerList (l : List Char) : List Char := l.map pyToLower

/-- word characters for the regex class \w (ASCII alphanumerics,
underscore, and Latin-1 letters). -/
def isPyWord (c : Char) : Bool :=
  isPyDigit c || (65 ≤ c.toNat && c.toNat ≤ 90) || (97 ≤ c.toNat && c.toNat ≤ 122) ||
    c = '_' || (192 ≤ c.toNat && c.toNat ≤ 255 && c.toNat ≠ 215 && c.toNat ≠ 247)

/-! ### List-of-characters primitives: strip, startswith, substring -/

/-- Python str.strip with no argument: drop whitespace from both ends. -/
def pyStrip (l : List Char) : List Char :=
  (l.dropWhile isPySpace).rdropWhile isPySpace

/-- Python str.startswith on character lists (first argument the string,
second the candidate leading pattern). -/
def pyStartsWith : List Char → List Char → Bool
  | _, [] => true
  | [], _ :: _ => false
  | c :: cs, p :: ps => c = p && pyStartsWith cs ps

/-- Python substring containment, needle in hay. -/
def pyContains (hay needle : List Char) : Bool :=
  hay.tails.any (fun t => pyStartsWith t needle)

/-! ### utils.normalize_text -/

/-- one pass of re.sub applied to a whitespace class: every maximal run
of whitespace characters becomes a single ASCII space.  The flag records
whether the previous character belonged to the current run. -/
def collapseAux : Bool → List Char → List Char
  | _, [] => []
  | prev, c :: cs =>
    if isPySpace c then
      if prev then collapseAux true cs else ' ' :: collapseAux true cs
    else c :: collapseAux false cs

/-- body of utils.normalize_text on character lists: strip, collapse
whitespace runs to single spaces, then delete control characters. -/
def normList (l : List Char) : List Char :=
  (collapseAux false (pyStrip l)).filter (fun c => !(isPyCtrl c))

/-- utils.normalize_text. -/
def normalize_text (s : String) : String :=
  if s.data = [] then "" else ⟨normList s.data⟩

/-! ### utils.clean_headline -/

/-- one iteration of the loop in clean_headline: if the current headline
starts with the given label, drop it and strip the remainder. -/
def stripOnce (cs : List Char) (p : List Char) : List Char :=
  if pyStartsWith cs p then pyStrip (cs.drop p.length) else cs

/-- the fixed list prefixes_to_remove from clean_headline, in source order. -/
def headline_labels : List (List Char) :=
  ["Anúncio".data, "Ad:".data, "Sponsored:".data, "Patrocinado:".data]

/-- utils.clean_headline. -/
def clean_headline (s : String) : String :=
  if s.data = [] then "" else normalize_text ⟨headline_labels.foldl stripOnce s.data⟩

/-! ### utils.is_marketplace and utils.is_probable_dropshipping -/

/-- the fixed marketplace substring list from utils.is_marketplace. -/
def marketplaces : List String :=
  ["mercadolivre.com", "mercadolibre.com",
   "amazon.com", "amazon.com.br",
   "shopee.com.br",
   "magazineluiza.com.br", "magalu.com.br",
   "americanas.com.br",
   "casasbahia.com.br",
   "submarino.com.br",
   "extra.com.br",
   "pontofrio.com.br"]

/-- utils.is_marketplace. -/
def is_marketplace (url : String) : Bool :=
  if url.data = [] then false
  else marketplaces.any (fun m => pyContains (lowerList url.data) m.data)

/-- the fixed dropshipping marker list from utils.is_probable_dropshipping. -/
def dropshipping_patterns : List String :=
  ["myshopify.com", "/products/", "yampi.com.br", "appmax.com.br",
   "cartpanda.com.br", "nuvemshop.com.br", "tray.com.br", "loja.com.br",
   "checkout", "comprar-agora", "add-to-cart", "produto-"]

/-- utils.is_probable_dropshipping. -/
def is_probable_dropshipping (url : String) : Bool :=
  if url.data = [] then false
  else dropshipping_patterns.any (fun p => pyContains (lowerList url.data) p.data)

/-! ### utils.estimate_variations_from_text -/

def digitsToNat (ds : List Char) : Nat :=
  ds.foldl (fun acc c => 10 * acc + (c.toNat - 48)) 0

/-- regex match attempt anchored at the current position for the three
patterns of the shape digits, optional whitespace, then one of the given
literal words.  Greedy digit capture is exact here because the word
alternatives all begin with a letter. -/
def matchNumThenWord (words : List (List Char)) (cs : List Char) : Option Nat :=
  let ds := cs.takeWhile isPyDigit
  if ds = [] then none
  else
    let rest := (cs.dropWhile isPyDigit).dropWhile isPySpace
    if words.any (fun w => pyStartsWith rest w) then some (digitsToNat ds) else none

/-- regex match attempt anchored at the current position for the pattern
disponível, mandatory whitespace, em, mandatory whitespace, digits. -/
def matchDisponivel (cs : List Char) : Option Nat :=
  if pyStartsWith cs "disponível".data then
    let r1 := cs.drop 10
    let sp1 := r1.takeWhile isPySpace
    if sp1 = [] then none
    else
      let r2 := r1.dropWhile isPySpace
      if pyStartsWith r2 "em".data then
        let r3 := r2.drop 2
        let sp2 := r3.takeWhile isPySpace
        if sp2 = [] then none
        else
          let r4 := r3.dropWhile isPySpace
          let ds := r4.takeWhile isPyDigit
          if ds = [] then none else some (digitsToNat ds)
      else none
  else none

/-- re.search: try the anchored matcher at every position, leftmost wins. -/
def searchPos (f : List Char → Option Nat) : List Char → Option Nat
  | [] => f []
  | c :: cs =>
    match f (c :: cs) with
    | some n => some n
    | none => searchPos f cs

/-- utils.estimate_variations_from_text.  The four variation_indicators
patterns are tried in source order over the lowercased text; a captured
count is clamped to at most 20; with no match the result is 1. -/
def estimate_variations_from_text (s : String) : Int :=
  if s.data = [] then 1
  else
    let t := lowerList s.data
    match searchPos (matchNumThenWord
        ["versões".data, "variações".data, "opções".data]) t with
    | some n => min (n : Int) 20
    | none =>
      match searchPos matchDisponivel t with
      | some n => min (n : Int) 20
      | none =>
        match searchPos (matchNumThenWord ["cores".data]) t with
        | some n => min (n : Int) 20
        | none =>
          match searchPos (matchNumThenWord ["tamanhos".data]) t with
          | some n => min (n : Int) 20
          | none => 1

/-! ### utils.compute_score

Python floats are modelled as real numbers; math.tanh never raises on a
finite float, so the except branch of safe_tanh is unreachable and
safe_tanh coincides with tanh. -/

/-- Python truthiness-based defaulting, x or d, on integers:
None and 0 are falsy. -/
def pyOrI (x : Option Int) (d : Int) : Int :=
  match x with
  | none => d
  | some v => if v = 0 then d else v

/-- utils.clamp. -/
def clamp (value lo hi : ℝ) : ℝ := max lo (min value hi)

/-- utils.safe_tanh (the overflow guard is dead code for finite inputs). -/
noncomputable def safe_tanh (x : ℝ) : ℝ := Real.tanh x

/-- Python round(x, 2): round 100*x to the nearest integer, then divide. -/
noncomputable def round2 (x : ℝ) : ℝ := ((round (x * 100) : ℤ) : ℝ) / 100

/-- utils.compute_score.  Arguments are optional to reflect the
None-tolerant use of the operator or in the source. -/
noncomputable def compute_score (ads days variations : Option Int) : ℝ :=
  let A := clamp ((pyOrI ads 0 : Int) : ℝ) 0 50
  let D := clamp ((pyOrI days 0 : Int) : ℝ) 0 60
  let V := max 1 ((pyOrI variations 1 : Int) : ℝ)
  round2 (100 * (0.5 * (A / 50) + 0.3 * (D / 60) + 0.2 * safe_tanh (V / 5)))

/-! ### utils.days_between and the date model

datetime.date is modelled by a year-month-day triple with the proleptic
Gregorian ordinal used by date.toordinal; datetime.strptime with the
fixed format %Y-%m-%d is modelled by the exact regular expressions
CPython compiles for the directives %Y (four digits), %m and %d (one or
two digits with the usual alternatives), with the whole string consumed,
followed by the constructor range checks. -/

structure PyDate where
  year : Nat
  month : Nat
  day : Nat
deriving DecidableEq, Repr

def isPyLeap (y : Nat) : Bool := y % 4 = 0 && (y % 100 ≠ 0 || y % 400 = 0)

def daysInMonth (y m : Nat) : Nat :=
  if m = 2 then (if isPyLeap y then 29 else 28)
  else if m = 4 || m = 6 || m = 9 || m = 11 then 30
  else 31

def daysBeforeMonth (y m : Nat) : Nat :=
  (List.range (m - 1)).foldl (fun acc i => acc + daysInMonth y (i + 1)) 0

/-- date.toordinal: day count from 0001-01-01, which has ordinal 1. -/
def toOrdinal (d : PyDate) : Nat :=
  365 * (d.year - 1) + (d.year - 1) / 4 - (d.year - 1) / 100 + (d.year - 1) / 400 +
    daysBeforeMonth d.year d.month + d.day

/-- the datetime.date constructor checks. -/
def isValidDate (y m d : Nat) : Bool :=
  1 ≤ y && y ≤ 9999 && 1 ≤ m && m ≤ 12 && 1 ≤ d && d ≤ daysInMonth y m

def digitVal (c : Char) : Nat := c.toNat - 48

/-- alternatives of the strptime month regex 1[0-2], 0[1-9] and [1-9],
in that order, each yielding the parsed value and the remaining input. -/
def monthAlts (cs : List Char) : List (Nat × List Char) :=
  (match cs with
   | c1 :: c2 :: r =>
     if c1 = '1' && '0' ≤ c2 && c2 ≤ '2' then [(10 + digitVal c2, r)] else []
   | _ => []) ++
  (match cs with
   | c1 :: c2 :: r =>
     if c1 = '0' && '1' ≤ c2 && c2 ≤ '9' then [(digitVal c2, r)] else []
   | _ => []) ++
  (match cs with
   | c1 :: r => if '1' ≤ c1 && c1 ≤ '9' then [(digitVal c1, r)] else []
   | _ => [])

/-- alternatives of the strptime day regex 3[01], [12]d, 0[1-9] and
[1-9], in that order. -/
def dayAlts (cs : List Char) : List (Nat × List Char) :=
  (match cs with
   | c1 :: c2 :: r =>
     if c1 = '3' && '0' ≤ c2 && c2 ≤ '1' then [(30 + digitVal c2, r)] else []
   | _ => []) ++
  (match cs with
   | c1 :: c2 :: r =>
     if '1' ≤ c1 && c1 ≤ '2' && isPyDigit c2 then
       [(10 * digitVal c1 + digitVal c2, r)] else []
   | _ => []) ++
  (match cs with
   | c1 :: c2 :: r =>
     if c1 = '0' && '1' ≤ c2 && c2 ≤ '9' then [(digitVal c2, r)] else []
   | _ => []) ++
  (match cs with
   | c1 :: r => if '1' ≤ c1 && c1 ≤ '9' then [(digitVal c1, r)] else []
   | _ => [])

/-- the regex stage of strptime(s, %Y-%m-%d): four year digits, a dash,
a month alternative, a dash, a day alternative, end of input, with the
backtracking order of the compiled pattern. -/
def matchYMD (l : List Char) : Option (Nat × Nat × Nat) :=
  match l with
  | y1 :: y2 :: y3 :: y4 :: '-' :: rest =>
    if isPyDigit y1 && isPyDigit y2 && isPyDigit y3 && isPyDigit y4 then
      let y := 1000 * digitVal y1 + 100 * digitVal y2 + 10 * digitVal y3 + digitVal y4
      (monthAlts rest).findSome? fun mr =>
        match mr.2 with
        | '-' :: r2 =>
          (dayAlts r2).findSome? fun dr =>
            if dr.2 = [] then some (y, mr.1, dr.1) else none
        | _ => none
    else none
  | _ => none

/-- datetime.strptime(s, %Y-%m-%d).date(): the regex stage followed by
the constructor validity check; any failure raises, which the caller
turns into the default. -/
def pyStrptimeYMD (s : String) : Option PyDate :=
  match matchYMD s.data with
  | some (y, m, d) => if isValidDate y m d then some ⟨y, m, d⟩ else none
  | none => none

/-- utils.days_between with the injectable reference date. -/
def days_between (s : String) (today : PyDate) : Int :=
  if s.data = [] then 0
  else
    match pyStrptimeYMD s with
    | some d => max 0 ((toOrdinal today : Int) - (toOrdinal d : Int))
    | none => 0

/-! ### utils.parse_date_any

The third-party fuzzy parser (dateutil.parser.parse with fuzzy and
dayfirst) is an external collaborator and is passed in as an oracle that
either yields a calendar date or fails; the five fallback regular
expressions and the Portuguese month table are embedded exactly.  The
regex engine below enumerates candidate consumptions of each pattern
element in the backtracking order of the Python engine (greedy, leftmost
start position first) and takes the first full match. -/

/-- the decimal digit characters. -/
def digitChar10 (n : Nat) : Char :=
  match n with
  | 0 => '0' | 1 => '1' | 2 => '2' | 3 => '3' | 4 => '4'
  | 5 => '5' | 6 => '6' | 7 => '7' | 8 => '8' | _ => '9'

def natDigitsRev (n : Nat) : List Char :=
  if h : n < 10 then [digitChar10 n]
  else digitChar10 (n % 10) :: natDigitsRev (n / 10)
decreasing_by exact Nat.div_lt_self (by omega) (by omega)

/-- decimal rendering of a natural number (no padding). -/
def natStr (n : Nat) : List Char := (natDigitsRev n).reverse

/-- Python str.zfill(2). -/
def zfill2 (ds : List Char) : List Char :=
  if ds.length < 2 then List.replicate (2 - ds.length) '0' ++ ds else ds

/-- strftime with format %Y-%m-%d as CPython renders it on Linux:
month and day are zero-padded to two digits, the year is unpadded. -/
def strftimeYMD (d : PyDate) : String :=
  ⟨natStr d.year ++ '-' :: (zfill2 (natStr d.month) ++ '-' :: zfill2 (natStr d.day))⟩

/-- pattern elements occurring in the five fallback regexes: a literal,
a capturing digit group with repetition bounds, a capturing word group,
mandatory whitespace, and an optional comma. -/
inductive RTok where
  | lit : List Char → RTok
  | digits : Nat → Nat → RTok
  | word : RTok
  | sp1 : RTok
  | optComma : RTok

/-- whether a pattern element captures a group. -/
def isCap : RTok → Bool
  | .digits _ _ => true
  | .word => true
  | _ => false

/-- the invariant every captured group of a pattern element satisfies. -/
def capOk : RTok → List Char → Prop
  | .digits lo hi, g => lo ≤ g.length ∧ g.length ≤ hi ∧ ∀ c ∈ g, isPyDigit c = true
  | .word, g => g ≠ [] ∧ ∀ c ∈ g, isPyWord c = true
  | _, _ => True

/-- candidate consumptions of one pattern element, as pairs of an
optional captured group and the remaining input, in the preference
order of the backtracking engine (greedy first). -/
def consume : RTok → List Char → List (Option (List Char) × List Char)
  | .lit p, cs => if pyStartsWith cs p then [(none, cs.drop p.length)] else []
  | .digits lo hi, cs =>
    let len := (cs.takeWhile isPyDigit).length
    let maxK := min hi len
    (List.range (maxK + 1 - lo)).map (fun i =>
      let k := maxK - i
      (some (cs.take k), cs.drop k))
  | .word, cs =>
    let len := (cs.takeWhile isPyWord).length
    (List.range len).map (fun i =>
      let k := len - i
      (some (cs.take k), cs.drop k))
  | .sp1, cs =>
    let len := (cs.takeWhile isPySpace).length
    (List.range len).map (fun i => (none, cs.drop (len - i)))
  | .optComma, cs =>
    match cs with
    | ',' :: r => [(none, r), (none, cs)]
    | _ => [(none, cs)]

/-- all matches of a pattern anchored at the current position, each as
its list of captured groups, in backtracking order; a match need not
consume the whole input. -/
def matchSeq : List RTok → List Char → List (List (List Char))
  | [], _ => [[]]
  | t :: ts, cs =>
    (consume t cs).flatMap (fun pr =>
      (matchSeq ts pr.2).map (fun gs =>
        match pr.1 with
        | some g => g :: gs
        | none => gs))

/-- re.search: leftmost starting position, preferred match there. -/
def searchTk (toks : List RTok) : List Char → Option (List (List Char))
  | [] => (matchSeq toks []).head?
  | c :: cs =>
    match (matchSeq toks (c :: cs)).head? with
    | some gs => some gs
    | none => searchTk toks cs

/-- the five fallback patterns of parse_date_any, in source order. -/
def patDMYslash : List RTok :=
  [.digits 1 2, .lit ['/'], .digits 1 2, .lit ['/'], .digits 4 4]

def patISO : List RTok :=
  [.digits 4 4, .lit ['-'], .digits 1 2, .lit ['-'], .digits 1 2]

def patPT : List RTok :=
  [.digits 1 2, .sp1, .lit "de".data, .sp1, .word, .sp1, .lit "de".data, .sp1, .digits 4 4]

def patMonthFirst : List RTok :=
  [.word, .sp1, .digits 1 2, .optComma, .sp1, .digits 4 4]

def patDayFirst : List RTok :=
  [.digits 1 2, .sp1, .word, .sp1, .digits 4 4]

/-- the meses_pt month-name table. -/
def meses_pt : List (List Char × List Char) :=
  [("janeiro".data, "01".data), ("jan".data, "01".data),
   ("fevereiro".data, "02".data), ("fev".data, "02".data),
   ("março".data, "03".data), ("mar".data, "03".data),
   ("abril".data, "04".data), ("abr".data, "04".data),
   ("maio".data, "05".data), ("mai".data, "05".data),
   ("junho".data, "06".data), ("jun".data, "06".data),
   ("julho".data, "07".data), ("jul".data, "07".data),
   ("agosto".data, "08".data), ("ago".data, "08".data),
   ("setembro".data, "09".data), ("set".data, "09".data),
   ("outubro".data, "10".data), ("out".data, "10".data),
   ("novembro".data, "11".data), ("nov".data, "11".data),
   ("dezembro".data, "12".data), ("dez".data, "12".data)]

/-- meses_pt.get(name, "01"). -/
def mesLookup (name : List Char) : List Char :=
  ((meses_pt.find? (fun p => p.1 == name)).map (fun p => p.2)).getD ("01".data)

/-- captured group access, groups[i]. -/
def grp (gs : List (List Char)) (i : Nat) : List Char := gs.getD i []

/-- render f-string year dash month.zfill(2) dash day.zfill(2). -/
def fmtYMD (year month day : List Char) : String :=
  ⟨year ++ '-' :: (zfill2 month ++ '-' :: zfill2 day)⟩

/-- utils.parse_date_any, parameterized by the dateutil oracle: on
oracle success its date is rendered with strftime; otherwise the five
patterns are searched in order against the lowercased text and the
first match is formatted without any calendar validation; otherwise the
result is absent.  No path raises. -/
def parse_date_any (fuzzy : String → Option PyDate) (s : String) : Option String :=
  if s.data = [] then none
  else
    let t := pyStrip s.data
    match fuzzy ⟨t⟩ with
    | some d => some (strftimeYMD d)
    | none =>
      let low := lowerList t
      match searchTk patDMYslash low with
      | some gs => some (fmtYMD (grp gs 2) (grp gs 1) (grp gs 0))
      | none =>
        match searchTk patISO low with
        | some gs => some (fmtYMD (grp gs 0) (grp gs 1) (grp gs 2))
        | none =>
          match searchTk patPT low with
          | some gs => some (fmtYMD (grp gs 2) (mesLookup (grp gs 1)) (grp gs 0))
          | none =>
            match searchTk patMonthFirst low with
            | some gs => some (fmtYMD (grp gs 2) (mesLookup (grp gs 0)) (grp gs 1))
            | none =>
              match searchTk patDayFirst low with
              | some gs => some (fmtYMD (grp gs 2) (mesLookup (grp gs 1)) (grp gs 0))
              | none => none

/-! ### the record model (models.py) and the pipeline (main.py) -/

structure AdData where
  ad_id : Option String
  advertiser_name : Option String
  advertiser_url : Option String
  landing_url : Option String
  headline : Option String
  text : Option String
  media_type : String
  start_date : Option String
  days_active : Int
  active_status : String
  variations_count : Int
  advertiser_active_ads_est : Int
  is_probable_dropshipping : Bool
  exclusion_reason : Option String
  score : ℝ
  ad_library_result_url : Option String

structure AdOut where
  query : String
  country : String
  ad : AdData

structure SearchRequest where
  query : String
  depth : String
  exclude_marketplaces : Bool
  min_days : Int
  min_active_ads : Int

/-- Python truthiness of an optional string: None and the empty string
are falsy. -/
def pyTruthyOpt (o : Option String) : Bool :=
  match o with
  | none => false
  | some s => !(s.data.isEmpty)

/-- the soft-exclusion condition of filter_results: marketplaces are
excluded, the landing URL is truthy and it classifies as marketplace. -/
def mktCond (req : SearchRequest) (r : AdOut) : Bool :=
  req.exclude_marketplaces && pyTruthyOpt r.ad.landing_url &&
    is_marketplace (r.ad.landing_url.getD "")

/-- the annotation performed in the soft-exclusion branch. -/
def annot (r : AdOut) : AdOut :=
  { r with ad := { r.ad with exclusion_reason := some "Marketplace" } }

/-- main.filter_results. -/
def filter_results : List AdOut → SearchRequest → List AdOut
  | [], _ => []
  | r :: rest, req =>
    if mktCond req r then annot r :: filter_results rest req
    else if r.ad.days_active < req.min_days then filter_results rest req
    else if r.ad.advertiser_active_ads_est < req.min_active_ads then filter_results rest req
    else r :: filter_results rest req

/-- the per-record body of main.enhance_results: recompute the score
from the current counters and re-derive the dropshipping flag when it
is still unset and a landing URL is present. -/
noncomputable def enhance1 (r : AdOut) : AdOut :=
  { r with ad := { r.ad with
      score := compute_score (some r.ad.advertiser_active_ads_est)
        (some r.ad.days_active) (some r.ad.variations_count)
      is_probable_dropshipping :=
        if !r.ad.is_probable_dropshipping && pyTruthyOpt r.ad.landing_url then
          is_probable_dropshipping (r.ad.landing_url.getD "")
        else r.ad.is_probable_dropshipping } }

/-- main.enhance_results. -/
noncomputable def enhance_results (l : List AdOut) : List AdOut := l.map enhance1

/-- the comparison induced by the sort key (negated score, negated
days_active): ascending key order is descending score with descending
days_active as tie-break. -/
def sortLe (x y : AdOut) : Prop :=
  y.ad.score < x.ad.score ∨ (x.ad.score = y.ad.score ∧ y.ad.days_active ≤ x.ad.days_active)

noncomputable instance : DecidableRel sortLe := fun _ _ => Classical.propDecidable _

instance : IsTotal AdOut sortLe := by
  constructor
  intro x y
  unfold sortLe
  rcases lt_trichotomy x.ad.score y.ad.score with h | h | h
  · exact Or.inr (Or.inl h)
  · rcases le_total y.ad.days_active x.ad.days_active with hd | hd
    · exact Or.inl (Or.inr ⟨h, hd⟩)
    · exact Or.inr (Or.inr ⟨h.symm, hd⟩)
  · exact Or.inl (Or.inl h)

instance : IsTrans AdOut sortLe := by
  constructor
  intro a b c hab hbc
  unfold sortLe at *
  rcases hab with h1 | ⟨h1, h1d⟩ <;> rcases hbc with h2 | ⟨h2, h2d⟩
  · exact Or.inl (by linarith)
  · exact Or.inl (by linarith)
  · exact Or.inl (by linarith)
  · exact Or.inr ⟨by linarith, by omega⟩

/-- list.sort with the key of main.search_ads: any stable sort computes
the same output list as the stable sort of CPython, so the pipeline
sort is modelled by a stable insertion sort on the key order. -/
noncomputable def pysort (l : List AdOut) : List AdOut := List.insertionSort sortLe l

/-- the deterministic tail of main.search_ads after acquisition:
enhance, filter, then sort by descending score and days_active. -/
noncomputable def search_ads_core (results : List AdOut) (req : SearchRequest) : List AdOut :=
  pysort (filter_results (enhance_results results) req)

/-- the exact pair of sort keys of a record (score, days_active);
records tie in the sort order exactly when these agree. -/
def sortKey (x : AdOut) : ℝ × Int := (x.ad.score, x.ad.days_active)

open Classical in
/-- membership test for one exact key value, used to state stability. -/
noncomputable def keyEqB (k : ℝ × Int) (x : AdOut) : Bool := decide (sortKey x = k)

/-- re-deriving the score of a record from its own counters. -/
noncomputable def rescore (x : AdOut) : AdOut :=
  { x with ad := { x.ad with
      score := compute_score (some x.ad.advertiser_active_ads_est)
        (some x.ad.days_active) (some x.ad.variations_count) } }

/-! ### spec-side definitions used to compare claims with the code -/

/-- Modelled from the spec (claim C4): clean_headline as the claim
states it, removing only the first matching label and never more than
one, then normalizing. -/
def clean_headline_spec (s : String) : String :=
  if s.data = [] then ""
  else
    match headline_labels.find? (fun p => pyStartsWith s.data p) with
    | some p => normalize_text ⟨pyStrip (s.data.drop p.length)⟩
    | none => normalize_text s

/-- a string is a canonical calendar date, four digits, dash, two
digits, dash, two digits, denoting an existing date. -/
def isCalendarYMD (s : String) : Bool :=
  match s.data with
  | [y1, y2, y3, y4, '-', m1, m2, '-', d1, d2] =>
    isPyDigit y1 && isPyDigit y2 && isPyDigit y3 && isPyDigit y4 &&
    isPyDigit m1 && isPyDigit m2 && isPyDigit d1 && isPyDigit d2 &&
    isValidDate
      (1000 * digitVal y1 + 100 * digitVal y2 + 10 * digitVal y3 + digitVal y4)
      (10 * digitVal m1 + digitVal m2)
      (10 * digitVal d1 + digitVal d2)
  | _ => false

/-- shape of a fallback result: four digits, dash, two digits, dash,
two digits, with no calendar constraint. -/
def isShapeYMD (s : String) : Bool :=
  match s.data with
  | [y1, y2, y3, y4, '-', m1, m2, '-', d1, d2] =>
    isPyDigit y1 && isPyDigit y2 && isPyDigit y3 && isPyDigit y4 &&
    isPyDigit m1 && isPyDigit m2 && isPyDigit d1 && isPyDigit d2
  | _ => false

/-- a double space, the witness pattern for claim C3. -/
def hasDoubleSpace : List Char → Bool
  | c :: d :: cs => (c = ' ' && d = ' ') || hasDoubleSpace (d :: cs)
  | _ => false

/-- adjacent whitespace pair, the stronger invariant the collapse pass
guarantees. -/
def hasAdjSpace : List Char → Bool
  | c :: d :: cs => (isPySpace c && isPySpace d) || hasAdjSpace (d :: cs)
  | _ => false

/-! ## Theorems -/

/-- C5 (amended): estimate_variations_from_text always returns a value
that is at most 20 and at least 0; on a match of one of the cardinality
patterns, tried in the fixed priority order case-insensitively, it
returns the captured number clamped to at most 20, which is 0 when the
captured number itself is 0; it returns 1 when no pattern matches or
the text is absent.  The spec examples evaluate as stated. -/
theorem C5_estimate_variations_amended :
    (∀ s : String, estimate_variations_from_text s ≤ 20) ∧
    (∀ s : String, 0 ≤ estimate_variations_from_text s) ∧
    estimate_variations_from_text "Disponível em 5 cores" = 5 ∧
    estimate_variations_from_text "produto incrível" = 1 ∧
    estimate_variations_from_text "100 cores" = 20 ∧
    estimate_variations_from_text "" = 1 ∧
    estimate_variations_from_text "0 cores" = 0 := by
  refine ⟨fun s => ?_, fun s => ?_, by decide, by decide, by decide, by decide, by decide⟩
  · unfold estimate_variations_from_text
    split
    · omega
    · dsimp only
      split <;> try omega
      split <;> try omega
      split <;> try omega
      split <;> omega
  · unfold estimate_variations_from_text
    split
    · omega
    · dsimp only
      split <;> try omega
      split <;> try omega
      split <;> try omega
      split <;> omega

/-- C5 counterexample: on the input 0 cores the function returns 0, so
its result is not always at least 1 as the claim states. -/
theorem C5_counterexample : ¬ (1 ≤ estimate_variations_from_text "0 cores") := by
  decide

/-- C4 (amended): clean_headline walks the four known label prefixes in
the fixed source order, removing each one (and stripping whitespace)
exactly when the current string starts with it, and then applies
normalize_text; consequently when no label matches, the result is just
normalize_text of the input, a label that comes later in the list can
be removed after an earlier one (more than one removal), the same label
is never removed twice, and a label whose turn has passed is not
reconsidered. -/
theorem C4_clean_headline_amended :
    (∀ s : String, (∀ p ∈ headline_labels, pyStartsWith s.data p = false) →
      clean_headline s = normalize_text s) ∧
    clean_headline "Anúncio Ad: promo" = "promo" ∧
    clean_headline "Ad:Ad: hello" = "Ad: hello" ∧
    clean_headline "Ad: Anúncio x" = "Anúncio x" := by
  refine ⟨fun s h => ?_, by decide, by decide, by decide⟩
  obtain ⟨d⟩ := s
  have h1 := h ("Anúncio".data) (by simp [headline_labels])
  have h2 := h ("Ad:".data) (by simp [headline_labels])
  have h3 := h ("Sponsored:".data) (by simp [headline_labels])
  have h4 := h ("Patrocinado:".data) (by simp [headline_labels])
  unfold clean_headline
  rcases Decidable.em (d = []) with he | he
  · subst he
    simp [normalize_text]
  · simp only [he, if_neg, headline_labels, List.foldl, stripOnce, h1, h2, h3, h4,
      Bool.false_eq_true, if_false]

/-- C4 counterexample: on Anúncio Ad: promo the code removes both
labels while the claim predicts that only the first matching label is
removed, so the code differs from the claimed behavior at this input. -/
theorem C4_counterexample :
    clean_headline "Anúncio Ad: promo" ≠ clean_headline_spec "Anúncio Ad: promo" := by
  decide

/-- C4 witness: the no-label clause instantiated at a concrete string
that starts with none of the known labels. -/
theorem C4_clean_headline_amended_witness :
    (∀ p ∈ headline_labels, pyStartsWith ("promoção imperdível" : String).data p = false) ∧
    clean_headline "promoção imperdível" = normalize_text "promoção imperdível" :=
  ⟨by decide, C4_clean_headline_amended.1 "promoção imperdível" (by decide)⟩

/-- C6: days_between returns the clamped ordinal difference
max 0 (reference - parsed) whenever the input parses with the canonical
strptime format, returns 0 when the input is absent or fails to parse,
and evaluates as the spec examples state on 2025-01-01 and 2099-01-01
against the reference date 2025-01-10. -/
theorem C6_days_between :
    (∀ (s : String) (t : PyDate), 0 ≤ days_between s t) ∧
    (∀ (s : String) (t d : PyDate), pyStrptimeYMD s = some d →
      days_between s t = max 0 ((toOrdinal t : Int) - (toOrdinal d : Int))) ∧
    (∀ (s : String) (t : PyDate), pyStrptimeYMD s = none → days_between s t = 0) ∧
    days_between "2025-01-01" ⟨2025, 1, 10⟩ = 9 ∧
    days_between "2099-01-01" ⟨2025, 1, 10⟩ = 0 := by
  refine ⟨fun s t => ?_, fun s t d hp => ?_, fun s t hp => ?_, by decide, by decide⟩
  · unfold days_between
    split
    · omega
    · split
      · exact le_max_left 0 _
      · omega
  · unfold days_between
    split
    · rename_i he
      exfalso
      obtain ⟨dd⟩ := s
      simp only at he
      subst he
      simp [pyStrptimeYMD, matchYMD] at hp
    · rw [hp]
  · unfold days_between
    split
    · rfl
    · rw [hp]

/-- C6 witness: the general ordinal-difference clause instantiated at a
concrete date string and reference date. -/
theorem C6_days_between_witness :
    pyStrptimeYMD "2025-03-15" = some ⟨2025, 3, 15⟩ ∧
    days_between "2025-03-15" ⟨2025, 3, 20⟩ =
      max 0 ((toOrdinal ⟨2025, 3, 20⟩ : Int) - (toOrdinal ⟨2025, 3, 15⟩ : Int)) :=
  ⟨by decide, C6_days_between.2.1 "2025-03-15" ⟨2025, 3, 20⟩ ⟨2025, 3, 15⟩ (by decide)⟩

/-- concrete record builder used by witnesses and counterexamples: all
acquisition fields trivial except the ones the pipeline inspects. -/
def mkAd (landing : Option String) (days ads : Int) (reason : Option String) : AdOut :=
  { query := "q", country := "BR",
    ad := { ad_id := none, advertiser_name := none, advertiser_url := none,
            landing_url := landing, headline := none, text := none,
            media_type := "unknown", start_date := none, days_active := days,
            active_status := "active", variations_count := 1,
            advertiser_active_ads_est := ads, is_probable_dropshipping := false,
            exclusion_reason := reason, score := 0, ad_library_result_url := none } }

/-- concrete request builder used by witnesses and counterexamples. -/
def mkReq (excl : Bool) (minD minA : Int) : SearchRequest :=
  { query := "tenis", depth := "standard", exclude_marketplaces := excl,
    min_days := minD, min_active_ads := minA }

/-- C1 (amended): the filter stage treats each record by the first
matching rule: the soft-exclusion condition of the code coincides with
exclude_marketplaces together with the landing URL classifying as
marketplace, and in that case the record is kept, annotated with
exclusion_reason Marketplace, and not subject to the threshold tests;
otherwise a record with days_active below min_days is dropped;
otherwise a record with advertiser_active_ads_est below min_active_ads
is dropped; otherwise the record is kept completely unchanged, its
exclusion_reason left as it was rather than unset. -/
theorem C1_filter_results_amended :
    (∀ (req : SearchRequest) (r : AdOut),
      mktCond req r =
        (req.exclude_marketplaces && is_marketplace (r.ad.landing_url.getD ""))) ∧
    (∀ (req : SearchRequest) (r : AdOut) (rest : List AdOut),
      mktCond req r = true →
        filter_results (r :: rest) req = annot r :: filter_results rest req ∧
        (annot r).ad.exclusion_reason = some "Marketplace") ∧
    (∀ (req : SearchRequest) (r : AdOut) (rest : List AdOut),
      mktCond req r = false → r.ad.days_active < req.min_days →
        filter_results (r :: rest) req = filter_results rest req) ∧
    (∀ (req : SearchRequest) (r : AdOut) (rest : List AdOut),
      mktCond req r = false → ¬(r.ad.days_active < req.min_days) →
        r.ad.advertiser_active_ads_est < req.min_active_ads →
        filter_results (r :: rest) req = filter_results rest req) ∧
    (∀ (req : SearchRequest) (r : AdOut) (rest : List AdOut),
      mktCond req r = false → ¬(r.ad.days_active < req.min_days) →
        ¬(r.ad.advertiser_active_ads_est < req.min_active_ads) →
        filter_results (r :: rest) req = r :: filter_results rest req) := by
  refine ⟨fun req r => ?_, fun req r rest h => ?_, fun req r rest h hd => ?_,
    fun req r rest h hd ha => ?_, fun req r rest h hd ha => ?_⟩
  · cases hu : r.ad.landing_url with
    | none => simp [mktCond, pyTruthyOpt, hu, is_marketplace]
    | some u =>
      by_cases hd : u.data = []
      · simp [mktCond, pyTruthyOpt, hu, is_marketplace, hd]
      · have hne : u.data.isEmpty = false := by
          cases hu2 : u.data with
          | nil => exact absurd hu2 hd
          | cons c cs => rfl
        simp [mktCond, pyTruthyOpt, hu, is_marketplace, hd, hne]
  · exact ⟨by simp [filter_results, h], rfl⟩
  · simp [filter_results, h, hd]
  · simp [filter_results, h, hd, ha]
  · simp [filter_results, h, hd, ha]

/-- C1 witness: a marketplace landing URL with soft exclusion enabled
is kept and annotated, instantiating the soft-exclusion clause. -/
theorem C1_filter_results_amended_witness :
    mktCond (mkReq true 0 0) (mkAd (some "https://amazon.com.br/item") 5 5 none) = true ∧
    filter_results [mkAd (some "https://amazon.com.br/item") 5 5 none] (mkReq true 0 0) =
      [annot (mkAd (some "https://amazon.com.br/item") 5 5 none)] := by
  refine ⟨by decide, ?_⟩
  have h := ((C1_filter_results_amended.2.1 (mkReq true 0 0)
    (mkAd (some "https://amazon.com.br/item") 5 5 none) []) (by decide)).1
  simpa [filter_results] using h

/-- C1 counterexample: a record that reaches the final keep branch with
an exclusion_reason already present is kept with that annotation intact,
not with exclusion_reason unset as the claim states. -/
theorem C1_counterexample :
    (filter_results [mkAd none 5 5 (some "Marketplace")] (mkReq true 0 0)).map
        (fun x => x.ad.exclusion_reason) = [some "Marketplace"] ∧
    (some "Marketplace" : Option String) ≠ none := by
  exact ⟨by decide, by decide⟩

/-! ### lemmas about whitespace collapsing, used for claim C3 -/

/-- characters of the collapsed list are spaces or original characters. -/
theorem mem_collapseAux {c : Char} :
    ∀ (l : List Char) (prev : Bool), c ∈ collapseAux prev l → c = ' ' ∨ c ∈ l := by
  intro l
  induction l with
  | nil => intro prev h; simp [collapseAux] at h
  | cons x xs ih =>
    intro prev h
    by_cases hs : isPySpace x
    · cases prev with
      | true =>
        simp only [collapseAux, hs, if_true] at h
        rcases ih true h with h1 | h1
        · exact Or.inl h1
        · exact Or.inr (List.mem_cons_of_mem x h1)
      | false =>
        simp only [collapseAux, hs, if_true] at h
        rcases List.mem_cons.mp h with h1 | h1
        · exact Or.inl h1
        · rcases ih true h1 with h2 | h2
          · exact Or.inl h2
          · exact Or.inr (List.mem_cons_of_mem x h2)
    · simp only [collapseAux, hs, Bool.false_eq_true, if_false] at h
      rcases List.mem_cons.mp h with h1 | h1
      · exact Or.inr (h1 ▸ List.mem_cons_self x xs)
      · rcases ih false h1 with h2 | h2
        · exact Or.inl h2
        · exact Or.inr (List.mem_cons_of_mem x h2)

/-- after a space was just emitted, the next emitted character is not a
space. -/
theorem collapseAux_true_head :
    ∀ (l : List Char) (c : Char) (cs : List Char),
      collapseAux true l = c :: cs → isPySpace c = false := by
  intro l
  induction l with
  | nil => intro c cs h; simp [collapseAux] at h
  | cons x xs ih =>
    intro c cs h
    by_cases hs : isPySpace x
    · simp only [collapseAux, hs, if_true] at h
      exact ih c cs h
    · simp only [collapseAux, hs, Bool.false_eq_true, if_false, List.cons.injEq] at h
      rw [← h.1]
      simpa using hs

/-- unfolding equation of collapseAux on a cons cell. -/
theorem collapseAux_cons (prev : Bool) (c : Char) (cs : List Char) :
    collapseAux prev (c :: cs) =
      if isPySpace c then (if prev then collapseAux true cs else ' ' :: collapseAux true cs)
      else c :: collapseAux false cs := rfl

/-- collapse drops a space that follows an emitted space. -/
theorem collapseAux_cons_sp_true {c : Char} (cs : List Char) (h : isPySpace c = true) :
    collapseAux true (c :: cs) = collapseAux true cs := by
  simp [collapseAux_cons, h]

/-- collapse emits one space at the start of a whitespace run. -/
theorem collapseAux_cons_sp_false {c : Char} (cs : List Char) (h : isPySpace c = true) :
    collapseAux false (c :: cs) = ' ' :: collapseAux true cs := by
  simp [collapseAux_cons, h]

/-- collapse copies a non-space character. -/
theorem collapseAux_cons_neg (prev : Bool) {c : Char} (cs : List Char)
    (h : isPySpace c = false) :
    collapseAux prev (c :: cs) = c :: collapseAux false cs := by
  simp [collapseAux_cons, h]

/-- a collapsed list is empty only when every input character is a
space. -/
theorem collapseAux_eq_nil :
    ∀ (l : List Char) (prev : Bool), collapseAux prev l = [] →
      ∀ c ∈ l, isPySpace c = true := by
  intro l
  induction l with
  | nil => intro prev _ c hc; simp at hc
  | cons x xs ih =>
    intro prev h c hc
    by_cases hs : isPySpace x
    · cases prev with
      | true =>
        simp only [collapseAux, hs, if_true] at h
        rcases List.mem_cons.mp hc with h1 | h1
        · rw [h1]; exact hs
        · exact ih true h c h1
      | false => simp [collapseAux, hs] at h
    · simp [collapseAux, hs] at h

/-- the collapsed list ends with a non-space character whenever the
input does. -/
theorem collapseAux_getLast :
    ∀ (l : List Char) (prev : Bool) (c : Char),
      (∀ e, l.getLast? = some e → isPySpace e = false) →
      (collapseAux prev l).getLast? = some c → isPySpace c = false := by
  intro l
  induction l with
  | nil => intro prev c _ h; simp [collapseAux] at h
  | cons x xs ih =>
    intro prev c hlast h
    cases xs with
    | nil =>
      have hx : isPySpace x = false := hlast x (by simp)
      rw [collapseAux_cons_neg prev [] hx] at h
      simp only [collapseAux, List.getLast?_singleton, Option.some.injEq] at h
      rw [← h]; exact hx
    | cons y ys =>
      have hlast2 : ∀ e, (y :: ys).getLast? = some e → isPySpace e = false := by
        intro e he
        exact hlast e (by rwa [List.getLast?_cons_cons])
      have hne : ∀ pr, collapseAux pr (y :: ys) ≠ [] := by
        intro pr hnil
        have hall := collapseAux_eq_nil (y :: ys) pr hnil
        have hgl := List.getLast?_eq_getLast (y :: ys) (List.cons_ne_nil y ys)
        have hmem := List.getLast_mem (List.cons_ne_nil y ys)
        have hsp := hall _ hmem
        rw [hlast2 _ hgl] at hsp
        exact Bool.false_ne_true hsp
      by_cases hs : isPySpace x
      · cases prev with
        | true =>
          rw [collapseAux_cons_sp_true (y :: ys) hs] at h
          exact ih true c hlast2 h
        | false =>
          rw [collapseAux_cons_sp_false (y :: ys) hs] at h
          cases hcc : collapseAux true (y :: ys) with
          | nil => exact absurd hcc (hne true)
          | cons z zs =>
            rw [hcc, List.getLast?_cons_cons] at h
            exact ih true c hlast2 (by rwa [hcc])
      · have hs' : isPySpace x = false := by simpa using hs
        rw [collapseAux_cons_neg prev (y :: ys) hs'] at h
        cases hcc : collapseAux false (y :: ys) with
        | nil => exact absurd hcc (hne false)
        | cons z zs =>
          rw [hcc, List.getLast?_cons_cons] at h
          exact ih false c hlast2 (by rwa [hcc])

/-- collapsing is idempotent, separately for both flag values. -/
theorem collapseAux_idem :
    ∀ l : List Char,
      collapseAux false (collapseAux false l) = collapseAux false l ∧
      collapseAux true (collapseAux true l) = collapseAux true l := by
  intro l
  induction l with
  | nil => exact ⟨rfl, rfl⟩
  | cons x xs ih =>
    constructor
    · by_cases hs : isPySpace x
      · simp only [collapseAux, hs, if_true, if_false]
        have hsp : isPySpace ' ' = true := by decide
        simp only [collapseAux, hsp, if_true, Bool.false_eq_true, if_false]
        rw [ih.2]
      · simp only [collapseAux, hs, Bool.false_eq_true, if_false]
        rw [ih.1]
    · by_cases hs : isPySpace x
      · simp only [collapseAux, hs, if_true]
        exact ih.2
      · simp only [collapseAux, hs, Bool.false_eq_true, if_false]
        rw [ih.1]

/-- no two adjacent whitespace characters survive collapsing. -/
theorem hasAdjSpace_collapseAux :
    ∀ (l : List Char) (prev : Bool), hasAdjSpace (collapseAux prev l) = false := by
  intro l
  induction l with
  | nil => intro prev; rfl
  | cons x xs ih =>
    intro prev
    by_cases hs : isPySpace x
    · cases prev with
      | true => simp only [collapseAux, hs, if_true]; exact ih true
      | false =>
        simp only [collapseAux, hs, if_true]
        cases hcc : collapseAux true xs with
        | nil => rfl
        | cons z zs =>
          have hz := collapseAux_true_head xs z zs hcc
          simp only [hasAdjSpace, hz, Bool.and_false, Bool.false_or]
          rw [← hcc]
          exact ih true
    · simp only [collapseAux, hs, Bool.false_eq_true, if_false]
      cases hcc : collapseAux false xs with
      | nil => rfl
      | cons z zs =>
        simp only [hasAdjSpace, hs, Bool.false_and, Bool.false_or]
        rw [← hcc]
        exact ih false

/-- a double space is in particular an adjacent whitespace pair. -/
theorem hasDoubleSpace_le_adj :
    ∀ l : List Char, hasAdjSpace l = false → hasDoubleSpace l = false := by
  intro l
  induction l with
  | nil => intro _; rfl
  | cons x xs ih =>
    intro h
    cases xs with
    | nil => rfl
    | cons y ys =>
      simp only [hasAdjSpace, Bool.or_eq_false_iff, Bool.and_eq_false_iff] at h
      simp only [hasDoubleSpace, Bool.or_eq_false_iff, Bool.and_eq_false_iff]
      refine ⟨?_, ih h.2⟩
      rcases h.1 with h1 | h1
      · left
        simp only [decide_eq_false_iff_not]
        intro hx
        rw [hx] at h1
        exact absurd h1 (by decide)
      · right
        simp only [decide_eq_false_iff_not]
        intro hy
        rw [hy] at h1
        exact absurd h1 (by decide)

/-- the head of dropWhile does not satisfy the predicate. -/
theorem dropWhile_head_false (p : Char → Bool) :
    ∀ (l : List Char) (c : Char) (cs : List Char),
      l.dropWhile p = c :: cs → p c = false := by
  intro l
  induction l with
  | nil => intro c cs h; simp at h
  | cons x xs ih =>
    intro c cs h
    by_cases hp : p x
    · rw [List.dropWhile_cons_of_pos hp] at h
      exact ih c cs h
    · rw [List.dropWhile_cons_of_neg hp] at h
      rw [← List.cons.injEq x xs c cs |>.mp h |>.1]
      simpa using hp

/-- stripped lists keep only original characters. -/
theorem mem_pyStrip {c : Char} {l : List Char} (h : c ∈ pyStrip l) : c ∈ l := by
  have h1 : c ∈ l.dropWhile isPySpace :=
    (List.rdropWhile_prefix isPySpace (l.dropWhile isPySpace)).sublist.mem h
  exact (List.dropWhile_suffix isPySpace).sublist.mem h1

/-- the head of a stripped list is not whitespace. -/
theorem pyStrip_head (l : List Char) :
    ∀ (c : Char) (cs : List Char), pyStrip l = c :: cs → isPySpace c = false := by
  intro c cs h
  obtain ⟨t, ht⟩ := List.rdropWhile_prefix isPySpace (l.dropWhile isPySpace)
  rw [show (l.dropWhile isPySpace).rdropWhile isPySpace = pyStrip l from rfl, h,
    List.cons_append] at ht
  exact dropWhile_head_false isPySpace l c (cs ++ t) ht.symm

/-- the last character of a stripped list is not whitespace. -/
theorem pyStrip_getLast (l : List Char) :
    ∀ c : Char, (pyStrip l).getLast? = some c → isPySpace c = false := by
  intro c h
  have hne : pyStrip l ≠ [] := by
    intro he
    rw [he] at h
    simp at h
  have hnot := List.rdropWhile_last_not isPySpace (l.dropWhile isPySpace) hne
  rw [List.getLast?_eq_getLast _ hne] at h
  have := Option.some.inj h
  rw [← this]
  simpa using hnot

/-- stripping fixes a collapsed stripped list. -/
theorem pyStrip_collapse_fix (l : List Char) :
    pyStrip (collapseAux false (pyStrip l)) = collapseAux false (pyStrip l) := by
  cases hX : collapseAux false (pyStrip l) with
  | nil => rfl
  | cons x xs =>
    have hx : isPySpace x = false := by
      cases hS : pyStrip l with
      | nil => rw [hS] at hX; simp [collapseAux] at hX
      | cons y ys =>
        have hy := pyStrip_head l y ys hS
        rw [hS] at hX
        simp only [collapseAux, hy, Bool.false_eq_true, if_false, List.cons.injEq] at hX
        rw [← hX.1]
        exact hy
    have hdw : (x :: xs).dropWhile isPySpace = x :: xs :=
      List.dropWhile_cons_of_neg (by simp [hx])
    have hlastne : ∀ e, (x :: xs).getLast? = some e → isPySpace e = false := by
      intro e he
      rw [← hX] at he
      refine collapseAux_getLast (pyStrip l) false e ?_ he
      intro f hf
      exact pyStrip_getLast l f hf
    unfold pyStrip
    rw [hdw]
    rw [List.rdropWhile_eq_self_iff]
    intro hl
    have := hlastne ((x :: xs).getLast hl) (List.getLast?_eq_getLast _ hl)
    simp [this]

/-- C3 (amended): the output of normalize_text never contains a control
character from the ranges 0x00 to 0x1F and 0x7F to 0x9F; and on every
input that is free of such control characters, normalize_text is
idempotent and its output never contains two consecutive spaces.  The
unrestricted idempotence and no-double-space properties fail, because
the code collapses whitespace before deleting control characters, so a
deleted control character can fuse two single spaces. -/
theorem C3_normalize_text_amended :
    (∀ (s : String) (c : Char), c ∈ (normalize_text s).data → isPyCtrl c = false) ∧
    (∀ s : String, (∀ c ∈ s.data, isPyCtrl c = false) →
      normalize_text (normalize_text s) = normalize_text s ∧
      hasDoubleSpace (normalize_text s).data = false) := by
  constructor
  · intro s c h
    unfold normalize_text at h
    by_cases he : s.data = []
    · rw [if_pos he] at h
      simp at h
    · rw [if_neg he] at h
      have h' : c ∈ normList s.data := h
      simpa using (List.mem_filter.mp h').2
  · intro s hctrl
    by_cases he : s.data = []
    · have h0 : normalize_text s = "" := by simp [normalize_text, he]
      rw [h0]
      exact ⟨by decide, by decide⟩
    · have hmem : ∀ c ∈ collapseAux false (pyStrip s.data), (!(isPyCtrl c)) = true := by
        intro c hc
        rcases mem_collapseAux (pyStrip s.data) false hc with h1 | h1
        · rw [h1]; decide
        · have := hctrl c (mem_pyStrip h1)
          simp [this]
      have hN : normList s.data = collapseAux false (pyStrip s.data) :=
        List.filter_eq_self.mpr hmem
      have hdata : (normalize_text s).data = collapseAux false (pyStrip s.data) := by
        show (if s.data = [] then ("" : String) else ⟨normList s.data⟩).data = _
        rw [if_neg he]
        exact hN
      refine ⟨?_, ?_⟩
      · by_cases hX : collapseAux false (pyStrip s.data) = []
        · have h1 : normalize_text s = "" := String.ext (by rw [hdata, hX])
          rw [h1]
          decide
        · have hXctrl : ∀ c ∈ collapseAux false (pyStrip s.data),
              (!(isPyCtrl c)) = true := hmem
          have hfix := pyStrip_collapse_fix s.data
          have hidem := (collapseAux_idem (pyStrip s.data)).1
          have houter : normalize_text (normalize_text s) =
              ⟨normList (collapseAux false (pyStrip s.data))⟩ := by
            rw [show normalize_text (normalize_text s) =
              if (normalize_text s).data = [] then ""
              else ⟨normList (normalize_text s).data⟩ from rfl, hdata, if_neg hX]
          have hNX : normList (collapseAux false (pyStrip s.data)) =
              collapseAux false (pyStrip s.data) := by
            unfold normList
            rw [hfix, hidem]
            exact List.filter_eq_self.mpr hXctrl
          rw [houter, hNX]
          exact String.ext (by rw [hdata])
      · rw [hdata]
        exact hasDoubleSpace_le_adj _ (hasAdjSpace_collapseAux (pyStrip s.data) false)

/-- C3 counterexample: on the input a, space, the NUL character, space,
b, the code first collapses whitespace and then deletes the control
character, producing a double space, and a second application collapses
that double space, so the function is neither idempotent nor free of
double spaces on this input. -/
theorem C3_counterexample :
    normalize_text (normalize_text "a \x00 b") ≠ normalize_text "a \x00 b" ∧
    hasDoubleSpace (normalize_text "a \x00 b").data = true :=
  ⟨by decide, by decide⟩

/-- C3 witness: the amended theorem instantiated at a control-free
input containing whitespace runs. -/
theorem C3_normalize_text_amended_witness :
    isPyCtrl 'o' = false ∧
    normalize_text (normalize_text "ola  mundo   bom") = normalize_text "ola  mundo   bom" ∧
    hasDoubleSpace (normalize_text "ola  mundo   bom").data = false :=
  ⟨C3_normalize_text_amended.1 "ola  mundo   bom" 'o' (by decide),
   (C3_normalize_text_amended.2 "ola  mundo   bom" (by decide)).1,
   (C3_normalize_text_amended.2 "ola  mundo   bom" (by decide)).2⟩

/-! ### analytic lemmas about tanh and rounding, used for C2 and C10 -/

/-- tanh written over the exponential of the doubled argument. -/
theorem tanh_formula (x : ℝ) :
    Real.tanh x = (Real.exp (2 * x) - 1) / (Real.exp (2 * x) + 1) := by
  rw [Real.tanh_eq_sinh_div_cosh, Real.sinh_eq, Real.cosh_eq]
  have h1 : Real.exp x ≠ 0 := (Real.exp_pos x).ne'
  have h3 : Real.exp (2 * x) = Real.exp x * Real.exp x := by
    rw [two_mul, Real.exp_add]
  rw [Real.exp_neg, h3]
  have h4 : Real.exp x + (Real.exp x)⁻¹ ≠ 0 := by positivity
  have h5 : Real.exp x * Real.exp x + 1 ≠ 0 := by positivity
  field_simp

/-- tanh is monotone. -/
theorem tanh_mono {x y : ℝ} (h : x ≤ y) : Real.tanh x ≤ Real.tanh y := by
  rw [tanh_formula, tanh_formula]
  have hx : (0 : ℝ) < Real.exp (2 * x) := Real.exp_pos _
  have hy : (0 : ℝ) < Real.exp (2 * y) := Real.exp_pos _
  have hxy : Real.exp (2 * x) ≤ Real.exp (2 * y) := Real.exp_le_exp.mpr (by linarith)
  rw [div_le_div_iff (by linarith) (by linarith)]
  nlinarith

/-- tanh stays below one. -/
theorem tanh_below_one (x : ℝ) : Real.tanh x < 1 := by
  rw [tanh_formula]
  have hx : (0 : ℝ) < Real.exp (2 * x) := Real.exp_pos _
  rw [div_lt_one (by linarith)]
  linarith

/-- tanh of a nonnegative argument is nonnegative. -/
theorem tanh_nonneg_of_nonneg {x : ℝ} (hx : 0 ≤ x) : 0 ≤ Real.tanh x := by
  rw [tanh_formula]
  have h1 : (1 : ℝ) ≤ Real.exp (2 * x) := by
    have := Real.add_one_le_exp (2 * x)
    linarith
  have h2 : (0 : ℝ) < Real.exp (2 * x) + 1 := by linarith
  exact div_nonneg (by linarith) (by linarith)

/-- lower Taylor bound for the exponential at two fifths. -/
theorem exp_two_fifths_lb : (2797 : ℝ) / 1875 ≤ Real.exp (2 / 5) := by
  have h := Real.sum_le_exp_of_nonneg (show (0 : ℝ) ≤ 2 / 5 by norm_num) 5
  refine le_trans (le_of_eq ?_) h
  rw [Finset.sum_range_succ, Finset.sum_range_succ, Finset.sum_range_succ,
    Finset.sum_range_succ, Finset.sum_range_succ, Finset.sum_range_zero]
  norm_num [Nat.factorial]

/-- upper Taylor bound for the exponential at two fifths. -/
theorem exp_two_fifths_ub : Real.exp (2 / 5) ≤ (349649 : ℝ) / 234375 := by
  have h := Real.exp_bound' (show (0 : ℝ) ≤ 2 / 5 by norm_num) (show (2 : ℝ) / 5 ≤ 1 by norm_num)
    (show 0 < 5 by norm_num)
  refine h.trans (le_of_eq ?_)
  rw [Finset.sum_range_succ, Finset.sum_range_succ, Finset.sum_range_succ,
    Finset.sum_range_succ, Finset.sum_range_succ, Finset.sum_range_zero]
  norm_num [Nat.factorial]

/-- rational lower bound for tanh of one fifth. -/
theorem tanh_fifth_lb : (1973 : ℝ) / 10000 ≤ Real.tanh (1 / 5) := by
  rw [tanh_formula]
  have h2 : (2 : ℝ) * (1 / 5) = 2 / 5 := by norm_num
  rw [h2]
  have hlb := exp_two_fifths_lb
  have hpos : (0 : ℝ) < Real.exp (2 / 5) + 1 := by positivity
  rw [le_div_iff hpos]
  linarith

/-- rational upper bound for tanh of one fifth. -/
theorem tanh_fifth_ub : Real.tanh (1 / 5) ≤ (1974 : ℝ) / 10000 := by
  rw [tanh_formula]
  have h2 : (2 : ℝ) * (1 / 5) = 2 / 5 := by norm_num
  rw [h2]
  have hub := exp_two_fifths_ub
  have hlb := exp_two_fifths_lb
  have hpos : (0 : ℝ) < Real.exp (2 / 5) + 1 := by positivity
  rw [div_le_iff hpos]
  linarith

/-- rounding to two decimals is monotone. -/
theorem round2_mono {x y : ℝ} (h : x ≤ y) : round2 x ≤ round2 y := by
  unfold round2
  have hr : round (x * 100) ≤ round (y * 100) := by
    rw [round_eq, round_eq]
    exact Int.floor_le_floor (by linarith)
  have hc : ((round (x * 100) : ℤ) : ℝ) ≤ ((round (y * 100) : ℤ) : ℝ) := by
    exact_mod_cast hr
  have h100 : (0 : ℝ) < 100 := by norm_num
  exact (div_le_div_right h100).mpr hc

/-- rounding keeps nonnegative values nonnegative. -/
theorem round2_nonneg {x : ℝ} (h : 0 ≤ x) : 0 ≤ round2 x := by
  unfold round2
  have hr : (0 : ℤ) ≤ round (x * 100) := by
    rw [round_eq]
    exact Int.le_floor.mpr (by push_cast; linarith)
  have hc : (0 : ℝ) ≤ ((round (x * 100) : ℤ) : ℝ) := by exact_mod_cast hr
  linarith [hc]

/-- rounding a value below one hundred stays at most one hundred. -/
theorem round2_le_100 {x : ℝ} (h : x < 100) : round2 x ≤ 100 := by
  unfold round2
  have hr : round (x * 100) ≤ 10000 := by
    rw [round_eq]
    have : x * 100 + 1 / 2 < 10001 := by linarith
    have hf : (⌊x * 100 + 1 / 2⌋ : ℤ) < 10001 := by
      exact_mod_cast Int.floor_lt.mpr (by push_cast; linarith)
    omega
  have hc : ((round (x * 100) : ℤ) : ℝ) ≤ 10000 := by exact_mod_cast hr
  linarith

/-! ### lemmas about compute_score -/

/-- defaulting with 0 through Python or is the identity on integers. -/
theorem pyOrI_some_zero (a : Int) : pyOrI (some a) 0 = a := by
  unfold pyOrI
  by_cases h : a = 0 <;> simp [h]

/-- under the outer max with 1, defaulting with 1 through Python or is
absorbed. -/
theorem max_one_pyOrI (v : Int) :
    max (1 : ℝ) ((pyOrI (some v) 1 : Int) : ℝ) = max 1 (v : ℝ) := by
  unfold pyOrI
  by_cases h : v = 0 <;> simp [h]

/-- the clamp lower bound. -/
theorem le_clamp_lo (x lo hi : ℝ) : lo ≤ clamp x lo hi := le_max_left _ _

/-- the clamp upper bound. -/
theorem clamp_le_hi (x lo hi : ℝ) (h : lo ≤ hi) : clamp x lo hi ≤ hi :=
  max_le h (min_le_right x hi)

/-- clamping is monotone in the clamped value. -/
theorem clamp_mono {x y : ℝ} (lo hi : ℝ) (h : x ≤ y) : clamp x lo hi ≤ clamp y lo hi :=
  max_le_max le_rfl (min_le_min h le_rfl)

/-- unfolding equation of compute_score. -/
theorem compute_score_def (a d v : Option Int) :
    compute_score a d v =
      round2 (100 * (0.5 * (clamp ((pyOrI a 0 : Int) : ℝ) 0 50 / 50)
        + 0.3 * (clamp ((pyOrI d 0 : Int) : ℝ) 0 60 / 60)
        + 0.2 * safe_tanh (max 1 ((pyOrI v 1 : Int) : ℝ) / 5))) := rfl

/-- the score formula is monotone in each of its three inner values. -/
theorem score_formula_mono {A B D E V W : ℝ} (hA : A ≤ B) (hD : D ≤ E) (hV : V ≤ W) :
    round2 (100 * (0.5 * (A / 50) + 0.3 * (D / 60) + 0.2 * safe_tanh (V / 5))) ≤
      round2 (100 * (0.5 * (B / 50) + 0.3 * (E / 60) + 0.2 * safe_tanh (W / 5))) := by
  apply round2_mono
  have ht : safe_tanh (V / 5) ≤ safe_tanh (W / 5) := tanh_mono (by linarith)
  linarith

/-- the score formula stays within the unit-percent range for clamped
inner values. -/
theorem score_formula_bounds {A D V : ℝ} (hA0 : 0 ≤ A) (hA5 : A ≤ 50) (hD0 : 0 ≤ D)
    (hD6 : D ≤ 60) (hV : 1 ≤ V) :
    0 ≤ round2 (100 * (0.5 * (A / 50) + 0.3 * (D / 60) + 0.2 * safe_tanh (V / 5))) ∧
      round2 (100 * (0.5 * (A / 50) + 0.3 * (D / 60) + 0.2 * safe_tanh (V / 5))) ≤ 100 := by
  have ht0 : 0 ≤ safe_tanh (V / 5) := tanh_nonneg_of_nonneg (by linarith)
  have ht1 : safe_tanh (V / 5) < 1 := tanh_below_one _
  constructor
  · exact round2_nonneg (by linarith)
  · exact round2_le_100 (by linarith)

/-- the score at the all-default point reduces to the tanh term. -/
theorem compute_score_none :
    compute_score none none none = round2 (100 * (0.2 * Real.tanh (1 / 5))) := by
  rw [compute_score_def]
  norm_num [clamp, pyOrI, safe_tanh]

/-- the rounded value of the tanh floor term. -/
theorem round2_min_val : round2 (100 * (0.2 * Real.tanh (1 / 5))) = 3.95 := by
  have hlb := tanh_fifth_lb
  have hub := tanh_fifth_ub
  unfold round2
  have hval : round (100 * (0.2 * Real.tanh (1 / 5)) * 100) = 395 := by
    rw [round_eq, Int.floor_eq_iff]
    constructor
    · push_cast
      linarith
    · push_cast
      linarith
  rw [hval]
  norm_num

/-- C2: compute_score always lands in the interval from 0 to 100 (in
particular for the claimed nonnegative inputs), and it is monotone
non-decreasing in each of its three arguments separately. -/
theorem C2_compute_score :
    (∀ a d v : Option Int,
      0 ≤ compute_score a d v ∧ compute_score a d v ≤ 100) ∧
    (∀ a b d v : Int, a ≤ b →
      compute_score (some a) (some d) (some v) ≤ compute_score (some b) (some d) (some v)) ∧
    (∀ a d e v : Int, d ≤ e →
      compute_score (some a) (some d) (some v) ≤ compute_score (some a) (some e) (some v)) ∧
    (∀ a d v w : Int, v ≤ w →
      compute_score (some a) (some d) (some v) ≤ compute_score (some a) (some d) (some w)) := by
  refine ⟨fun a d v => ?_, fun a b d v h => ?_, fun a d e v h => ?_, fun a d v w h => ?_⟩
  · rw [compute_score_def]
    exact score_formula_bounds (le_clamp_lo _ 0 50) (clamp_le_hi _ 0 50 (by norm_num))
      (le_clamp_lo _ 0 60) (clamp_le_hi _ 0 60 (by norm_num)) (le_max_left 1 _)
  · rw [compute_score_def, compute_score_def]
    simp only [pyOrI_some_zero]
    exact score_formula_mono (clamp_mono 0 50 (by exact_mod_cast h)) le_rfl le_rfl
  · rw [compute_score_def, compute_score_def]
    simp only [pyOrI_some_zero]
    exact score_formula_mono le_rfl (clamp_mono 0 60 (by exact_mod_cast h)) le_rfl
  · rw [compute_score_def, compute_score_def]
    simp only [max_one_pyOrI]
    exact score_formula_mono le_rfl le_rfl (max_le_max le_rfl (by exact_mod_cast h))

/-- C2 witness: the three monotonicity clauses instantiated at concrete
inputs. -/
theorem C2_compute_score_witness :
    compute_score (some 1) (some 4) (some 3) ≤ compute_score (some 9) (some 4) (some 3) ∧
    compute_score (some 1) (some 4) (some 3) ≤ compute_score (some 1) (some 8) (some 3) ∧
    compute_score (some 1) (some 4) (some 3) ≤ compute_score (some 1) (some 4) (some 7) :=
  ⟨C2_compute_score.2.1 1 9 4 3 (by decide),
   C2_compute_score.2.2.1 1 4 8 3 (by decide),
   C2_compute_score.2.2.2 1 4 3 7 (by decide)⟩

/-- C10: compute_score never returns 0: for every input triple,
including absent and negative values, the effective variations term is
forced to at least 1, so the result is bounded below by the value at
the all-default point, which is exactly 3.95. -/
theorem C10_compute_score_lower_bound :
    (∀ a d v : Option Int, (3.95 : ℝ) ≤ compute_score a d v) ∧
    compute_score none none none = 3.95 ∧
    (∀ a d v : Option Int, compute_score a d v ≠ 0) := by
  have hmin : ∀ a d v : Option Int,
      round2 (100 * (0.2 * Real.tanh (1 / 5))) ≤ compute_score a d v := by
    intro a d v
    rw [compute_score_def]
    apply round2_mono
    have hA := le_clamp_lo ((pyOrI a 0 : Int) : ℝ) 0 50
    have hD := le_clamp_lo ((pyOrI d 0 : Int) : ℝ) 0 60
    have hV : (1 : ℝ) ≤ max 1 ((pyOrI v 1 : Int) : ℝ) := le_max_left 1 _
    have ht : Real.tanh (1 / 5) ≤ Real.tanh (max 1 ((pyOrI v 1 : Int) : ℝ) / 5) :=
      tanh_mono (by linarith)
    unfold safe_tanh
    linarith
  refine ⟨fun a d v => ?_, ?_, fun a d v => ?_⟩
  · have h1 := hmin a d v
    rwa [round2_min_val] at h1
  · rw [compute_score_none, round2_min_val]
  · have h1 := hmin a d v
    rw [round2_min_val] at h1
    intro h0
    rw [h0] at h1
    norm_num at h1

/-! ### stability of the pipeline sort, used for C7 and C8 -/

/-- filtering ignores an inserted element that the filter rejects,
wherever it lands. -/
theorem filter_orderedInsert_neg {α : Type} (r : α → α → Prop) [DecidableRel r]
    (p : α → Bool) (a : α) (l : List α) (hpa : p a = false) :
    (List.orderedInsert r a l).filter p = l.filter p := by
  rw [List.orderedInsert_eq_take_drop, List.filter_append,
    List.filter_cons_of_neg (by simp [hpa])]
  conv_rhs => rw [← List.takeWhile_append_dropWhile (fun b => decide ¬r a b) l]
  rw [List.filter_append]

/-- an inserted element that the filter accepts lands in front of every
accepted element, provided everything it jumps over is rejected. -/
theorem filter_orderedInsert_pos {α : Type} (r : α → α → Prop) [DecidableRel r]
    (p : α → Bool) (a : α) (l : List α) (hpa : p a = true)
    (hp : ∀ b, ¬r a b → p b = false) :
    (List.orderedInsert r a l).filter p = a :: l.filter p := by
  rw [List.orderedInsert_eq_take_drop, List.filter_append,
    List.filter_cons_of_pos (by simp [hpa])]
  have htake : (l.takeWhile fun b => decide ¬r a b).filter p = [] := by
    rw [List.filter_eq_nil_iff]
    intro b hb
    have hmem := List.mem_takeWhile_imp hb
    have hrab : ¬r a b := by simpa using hmem
    simp [hp b hrab]
  rw [htake]
  conv_rhs =>
    rw [← List.takeWhile_append_dropWhile (fun b => decide ¬r a b) l,
      List.filter_append, htake]
  rfl

/-- the key-membership test recognises exactly the records with the
given exact key. -/
theorem keyEqB_iff (k : ℝ × Int) (x : AdOut) : keyEqB k x = true ↔ sortKey x = k := by
  unfold keyEqB
  exact decide_eq_true_iff

/-- records with the same exact key always compare. -/
theorem sortLe_of_keyEq {x y : AdOut} (h : sortKey x = sortKey y) : sortLe x y := by
  unfold sortKey at h
  have h1 : x.ad.score = y.ad.score := congrArg Prod.fst h
  have h2 : x.ad.days_active = y.ad.days_active := congrArg Prod.snd h
  exact Or.inr ⟨h1, le_of_eq h2.symm⟩

/-- stability of the pipeline sort: the subsequence of records carrying
one exact key value is unchanged by sorting. -/
theorem filter_insertionSort_keyEq (k : ℝ × Int) (l : List AdOut) :
    (List.insertionSort sortLe l).filter (keyEqB k) = l.filter (keyEqB k) := by
  induction l with
  | nil => rfl
  | cons a l ih =>
    rw [List.insertionSort]
    by_cases hpa : keyEqB k a = true
    · rw [filter_orderedInsert_pos sortLe (keyEqB k) a _ hpa ?_, ih,
        List.filter_cons_of_pos (by simp [hpa])]
      intro b hb
      by_cases hpb : keyEqB k b = true
      · exfalso
        have hka := (keyEqB_iff k a).mp hpa
        have hkb := (keyEqB_iff k b).mp hpb
        exact hb (sortLe_of_keyEq (hka.trans hkb.symm))
      · simpa using hpb
    · have hpa' : keyEqB k a = false := by simpa using hpa
      rw [filter_orderedInsert_neg sortLe (keyEqB k) a _ hpa', ih,
        List.filter_cons_of_neg (by simp [hpa'])]

/-- mapping a function that fixes every element is the identity. -/
theorem list_map_fix {α : Type} (f : α → α) :
    ∀ l : List α, (∀ x ∈ l, f x = x) → l.map f = l := by
  intro l
  induction l with
  | nil => intro _; rfl
  | cons x xs ih =>
    intro h
    rw [List.map_cons, h x (List.mem_cons_self x xs), ih (fun y hy => h y (List.mem_cons_of_mem x hy))]

/-! ### shape of the filter output, used for C7 and C8 -/

/-- unfolding equation of filter_results on a cons cell. -/
theorem filter_results_cons (r : AdOut) (rest : List AdOut) (req : SearchRequest) :
    filter_results (r :: rest) req =
      if mktCond req r then annot r :: filter_results rest req
      else if r.ad.days_active < req.min_days then filter_results rest req
      else if r.ad.advertiser_active_ads_est < req.min_active_ads then filter_results rest req
      else r :: filter_results rest req := rfl

/-- every record in the filter output is an input record, possibly
annotated. -/
theorem mem_filter_results {x : AdOut} :
    ∀ (l : List AdOut) (req : SearchRequest), x ∈ filter_results l req →
      x ∈ l ∨ ∃ y ∈ l, x = annot y := by
  intro l
  induction l with
  | nil => intro req hx; simp [filter_results] at hx
  | cons r rest ih =>
    intro req hx
    rw [filter_results_cons] at hx
    by_cases hm : mktCond req r = true
    · rw [if_pos hm] at hx
      rcases List.mem_cons.mp hx with h1 | h1
      · exact Or.inr ⟨r, List.mem_cons_self r rest, h1⟩
      · rcases ih req h1 with h2 | ⟨y, hy, hxy⟩
        · exact Or.inl (List.mem_cons_of_mem r h2)
        · exact Or.inr ⟨y, List.mem_cons_of_mem r hy, hxy⟩
    · rw [if_neg hm] at hx
      by_cases hd : r.ad.days_active < req.min_days
      · rw [if_pos hd] at hx
        rcases ih req hx with h2 | ⟨y, hy, hxy⟩
        · exact Or.inl (List.mem_cons_of_mem r h2)
        · exact Or.inr ⟨y, List.mem_cons_of_mem r hy, hxy⟩
      · rw [if_neg hd] at hx
        by_cases ha : r.ad.advertiser_active_ads_est < req.min_active_ads
        · rw [if_pos ha] at hx
          rcases ih req hx with h2 | ⟨y, hy, hxy⟩
          · exact Or.inl (List.mem_cons_of_mem r h2)
          · exact Or.inr ⟨y, List.mem_cons_of_mem r hy, hxy⟩
        · rw [if_neg ha] at hx
          rcases List.mem_cons.mp hx with h1 | h1
          · exact Or.inl (h1 ▸ List.mem_cons_self r rest)
          · rcases ih req h1 with h2 | ⟨y, hy, hxy⟩
            · exact Or.inl (List.mem_cons_of_mem r h2)
            · exact Or.inr ⟨y, List.mem_cons_of_mem r hy, hxy⟩

/-- annotating does not change the soft-exclusion condition. -/
theorem mktCond_annot (req : SearchRequest) (r : AdOut) :
    mktCond req (annot r) = mktCond req r := rfl

/-- annotating twice is annotating once. -/
theorem annot_annot (r : AdOut) : annot (annot r) = annot r := rfl

/-- every record surviving the filter satisfies the branch conditions
that keep it, in a form independent of the rest of the list. -/
theorem filter_results_all_pass :
    ∀ (l : List AdOut) (req : SearchRequest) (x : AdOut), x ∈ filter_results l req →
      (mktCond req x = true ∧ annot x = x) ∨
      (mktCond req x = false ∧ ¬(x.ad.days_active < req.min_days) ∧
        ¬(x.ad.advertiser_active_ads_est < req.min_active_ads)) := by
  intro l
  induction l with
  | nil => intro req x hx; simp [filter_results] at hx
  | cons r rest ih =>
    intro req x hx
    rw [filter_results_cons] at hx
    by_cases hm : mktCond req r = true
    · rw [if_pos hm] at hx
      rcases List.mem_cons.mp hx with h1 | h1
      · subst h1
        exact Or.inl ⟨by rw [mktCond_annot]; exact hm, annot_annot r⟩
      · exact ih req x h1
    · rw [if_neg hm] at hx
      by_cases hd : r.ad.days_active < req.min_days
      · rw [if_pos hd] at hx
        exact ih req x hx
      · rw [if_neg hd] at hx
        by_cases ha : r.ad.advertiser_active_ads_est < req.min_active_ads
        · rw [if_pos ha] at hx
          exact ih req x hx
        · rw [if_neg ha] at hx
          rcases List.mem_cons.mp hx with h1 | h1
          · subst h1
            exact Or.inr ⟨by simpa using hm, hd, ha⟩
          · exact ih req x h1

/-- a list whose records all satisfy their keeping conditions is fixed
by the filter. -/
theorem filter_results_of_all_pass :
    ∀ (m : List AdOut) (req : SearchRequest),
      (∀ x ∈ m, (mktCond req x = true ∧ annot x = x) ∨
        (mktCond req x = false ∧ ¬(x.ad.days_active < req.min_days) ∧
          ¬(x.ad.advertiser_active_ads_est < req.min_active_ads))) →
      filter_results m req = m := by
  intro m
  induction m with
  | nil => intro req _; rfl
  | cons x rest ih =>
    intro req h
    rw [filter_results_cons]
    rcases h x (List.mem_cons_self x rest) with ⟨hm, hfix⟩ | ⟨hm, hd, ha⟩
    · rw [if_pos hm, hfix, ih req (fun y hy => h y (List.mem_cons_of_mem x hy))]
    · rw [if_neg (by simp [hm]), if_neg hd, if_neg ha,
        ih req (fun y hy => h y (List.mem_cons_of_mem x hy))]

/-! ### the enhancement pass is stable on its own output -/

/-- enhancing twice equals enhancing once. -/
theorem enhance1_idem (r : AdOut) : enhance1 (enhance1 r) = enhance1 r := by
  unfold enhance1
  by_cases hT : pyTruthyOpt r.ad.landing_url <;>
    by_cases hF : r.ad.is_probable_dropshipping <;>
      by_cases hU : is_probable_dropshipping (r.ad.landing_url.getD "") <;>
        simp [hT, hF, hU]

/-- enhancing commutes with the marketplace annotation. -/
theorem enhance1_annot (r : AdOut) : enhance1 (annot r) = annot (enhance1 r) := by
  unfold enhance1 annot
  simp

/-- recomputing the score of an enhanced record changes nothing. -/
theorem rescore_enhance1 (r : AdOut) : rescore (enhance1 r) = enhance1 r := by
  unfold rescore enhance1
  simp

/-- recomputing the score commutes with the marketplace annotation. -/
theorem rescore_annot (r : AdOut) : rescore (annot r) = annot (rescore r) := by
  unfold rescore annot
  simp

/-- records that survived filtering of an enhanced list are fixed by
both the enhancement pass and score recomputation. -/
theorem fix_of_mem_filter_enhance {x : AdOut} {l : List AdOut} {req : SearchRequest}
    (hx : x ∈ filter_results (enhance_results l) req) :
    enhance1 x = x ∧ rescore x = x := by
  rcases mem_filter_results (enhance_results l) req hx with h1 | ⟨y, hy, hxy⟩
  · have h1' : x ∈ l.map enhance1 := h1
    obtain ⟨z, _, hze⟩ := List.mem_map.mp h1'
    rw [← hze]
    exact ⟨enhance1_idem z, rescore_enhance1 z⟩
  · have hy' : y ∈ l.map enhance1 := hy
    obtain ⟨z, _, hze⟩ := List.mem_map.mp hy'
    rw [hxy, ← hze]
    constructor
    · rw [enhance1_annot, enhance1_idem]
    · rw [rescore_annot, rescore_enhance1]

/-- unfolding equation of the pipeline tail. -/
theorem search_ads_core_def (results : List AdOut) (req : SearchRequest) :
    search_ads_core results req =
      List.insertionSort sortLe (filter_results (enhance_results results) req) := rfl

/-- C7: the pipeline output is sorted by descending score with
descending days_active as tie-break, the sort is stable (the
subsequence of records with any fixed exact key pair is exactly the one
of the pre-sort filtered list, in the same order), and every output
record carries a score freshly recomputed from its own counters. -/
theorem C7_sort_order_and_stability :
    ∀ (results : List AdOut) (req : SearchRequest),
      List.Sorted sortLe (search_ads_core results req) ∧
      (∀ k : ℝ × Int, (search_ads_core results req).filter (keyEqB k) =
        (filter_results (enhance_results results) req).filter (keyEqB k)) ∧
      (search_ads_core results req).map rescore = search_ads_core results req := by
  intro results req
  refine ⟨?_, fun k => ?_, ?_⟩
  · rw [search_ads_core_def]
    exact List.sorted_insertionSort sortLe _
  · rw [search_ads_core_def]
    exact filter_insertionSort_keyEq k _
  · apply list_map_fix
    intro x hx
    rw [search_ads_core_def] at hx
    have hx' : x ∈ filter_results (enhance_results results) req :=
      (List.mem_insertionSort sortLe).mp hx
    exact (fix_of_mem_filter_enhance hx').2

/-- C8: the pipeline stage is idempotent: running the full tail
(recompute scores, re-derive dropshipping, filter, sort) on its own
output with the same options returns the identical ordered list. -/
theorem C8_pipeline_idempotent :
    ∀ (results : List AdOut) (req : SearchRequest),
      search_ads_core (search_ads_core results req) req = search_ads_core results req := by
  intro results req
  have hmemF : ∀ x ∈ search_ads_core results req,
      x ∈ filter_results (enhance_results results) req := by
    intro x hx
    rw [search_ads_core_def] at hx
    exact (List.mem_insertionSort sortLe).mp hx
  have hE : enhance_results (search_ads_core results req) = search_ads_core results req := by
    apply list_map_fix
    intro x hx
    exact (fix_of_mem_filter_enhance (hmemF x hx)).1
  have hF : filter_results (search_ads_core results req) req = search_ads_core results req := by
    apply filter_results_of_all_pass
    intro x hx
    exact filter_results_all_pass _ req x (hmemF x hx)
  have hS : List.Sorted sortLe (search_ads_core results req) := by
    rw [search_ads_core_def]
    exact List.sorted_insertionSort sortLe _
  rw [search_ads_core_def (search_ads_core results req) req, hE, hF]
  exact hS.insertionSort_eq

/-! ### shape of rendered dates, used for C9 -/

/-- every rendered digit character is a decimal digit. -/
theorem digitChar10_isDigit (n : Nat) : isPyDigit (digitChar10 n) = true := by
  unfold digitChar10
  split <;> decide

/-- every character of a rendered natural number is a decimal digit. -/
theorem natDigitsRev_digits : ∀ n : Nat, ∀ c ∈ natDigitsRev n, isPyDigit c = true := by
  intro n
  induction n using Nat.strong_induction_on with
  | _ n ih =>
    intro c hc
    rw [natDigitsRev] at hc
    by_cases h : n < 10
    · rw [dif_pos h] at hc
      simp only [List.mem_singleton] at hc
      rw [hc]
      exact digitChar10_isDigit n
    · rw [dif_neg h] at hc
      rcases List.mem_cons.mp hc with h1 | h1
      · rw [h1]
        exact digitChar10_isDigit _
      · exact ih (n / 10) (Nat.div_lt_self (by omega) (by omega)) c h1

theorem natStr_digits (n : Nat) : ∀ c ∈ natStr n, isPyDigit c = true := by
  intro c hc
  exact natDigitsRev_digits n c (List.mem_reverse.mp hc)

theorem natDigitsRev_len1 {n : Nat} (h : n < 10) : (natDigitsRev n).length = 1 := by
  rw [natDigitsRev, dif_pos h]
  rfl

theorem natDigitsRev_len2 {n : Nat} (h1 : 10 ≤ n) (h2 : n < 100) :
    (natDigitsRev n).length = 2 := by
  rw [natDigitsRev, dif_neg (by omega)]
  rw [List.length_cons, natDigitsRev_len1 (show n / 10 < 10 by omega)]

theorem natDigitsRev_len3 {n : Nat} (h1 : 100 ≤ n) (h2 : n < 1000) :
    (natDigitsRev n).length = 3 := by
  rw [natDigitsRev, dif_neg (by omega)]
  rw [List.length_cons, natDigitsRev_len2 (show 10 ≤ n / 10 by omega) (show n / 10 < 100 by omega)]

theorem natDigitsRev_len4 {n : Nat} (h1 : 1000 ≤ n) (h2 : n < 10000) :
    (natDigitsRev n).length = 4 := by
  rw [natDigitsRev, dif_neg (by omega)]
  rw [List.length_cons, natDigitsRev_len3 (show 100 ≤ n / 10 by omega) (show n / 10 < 1000 by omega)]

theorem natStr_len4 {n : Nat} (h1 : 1000 ≤ n) (h2 : n ≤ 9999) : (natStr n).length = 4 := by
  unfold natStr
  rw [List.length_reverse]
  exact natDigitsRev_len4 h1 (by omega)

theorem natStr_len_small {n : Nat} (h1 : 1 ≤ n) (h2 : n ≤ 99) :
    1 ≤ (natStr n).length ∧ (natStr n).length ≤ 2 := by
  unfold natStr
  rw [List.length_reverse]
  by_cases h : n < 10
  · rw [natDigitsRev_len1 h]
    omega
  · rw [natDigitsRev_len2 (by omega) (by omega)]
    omega

/-- a one- or two-character digit string zero-fills to exactly two
digit characters. -/
theorem zfill2_shape {m : List Char} (h1 : 1 ≤ m.length) (h2 : m.length ≤ 2)
    (hd : ∀ c ∈ m, isPyDigit c = true) :
    ∃ c1 c2, zfill2 m = [c1, c2] ∧ isPyDigit c1 = true ∧ isPyDigit c2 = true := by
  cases m with
  | nil => simp at h1
  | cons x t =>
    cases t with
    | nil =>
      refine ⟨'0', x, ?_, by decide, hd x (by simp)⟩
      unfold zfill2
      norm_num
    | cons y t2 =>
      cases t2 with
      | nil =>
        refine ⟨x, y, ?_, hd x (by simp), hd y (by simp)⟩
        unfold zfill2
        norm_num
      | cons z t3 =>
        simp only [List.length_cons] at h2
        omega

/-- every entry of the month table maps to a two-character digit code. -/
theorem meses_pt_codes : ∀ p ∈ meses_pt, p.2.length = 2 ∧ ∀ c ∈ p.2, isPyDigit c = true := by
  decide

/-- the month lookup always yields a one- or two-character digit
string. -/
theorem mesLookup_digits (g : List Char) :
    1 ≤ (mesLookup g).length ∧ (mesLookup g).length ≤ 2 ∧
      ∀ c ∈ mesLookup g, isPyDigit c = true := by
  unfold mesLookup
  cases hf : meses_pt.find? (fun p => p.1 == g) with
  | none => exact ⟨by decide, by decide, by decide⟩
  | some p =>
    have hp := List.mem_of_find?_eq_some hf
    have hc := meses_pt_codes p hp
    simp only [Option.map_some', Option.getD_some]
    exact ⟨by omega, by omega, hc.2⟩

/-- the rendered result of the formatter has the unvalidated date
shape: four digits, dash, two digits, dash, two digits. -/
theorem shape_fmtYMD {y m d : List Char} (hy4 : y.length = 4)
    (hyd : ∀ c ∈ y, isPyDigit c = true)
    (hm1 : 1 ≤ m.length) (hm2 : m.length ≤ 2) (hmd : ∀ c ∈ m, isPyDigit c = true)
    (hd1 : 1 ≤ d.length) (hd2 : d.length ≤ 2) (hdd : ∀ c ∈ d, isPyDigit c = true) :
    isShapeYMD (fmtYMD y m d) = true := by
  obtain ⟨m1, m2, hmz, hm1d, hm2d⟩ := zfill2_shape hm1 hm2 hmd
  obtain ⟨d1, d2, hdz, hd1d, hd2d⟩ := zfill2_shape hd1 hd2 hdd
  cases y with
  | nil => simp at hy4
  | cons a t1 =>
    cases t1 with
    | nil => simp at hy4
    | cons b t2 =>
      cases t2 with
      | nil => simp at hy4
      | cons c t3 =>
        cases t3 with
        | nil => simp at hy4
        | cons e t4 =>
          cases t4 with
          | cons f t5 => simp at hy4
          | nil =>
            have ha := hyd a (by simp)
            have hb := hyd b (by simp)
            have hc := hyd c (by simp)
            have he := hyd e (by simp)
            unfold fmtYMD isShapeYMD
            rw [hmz, hdz]
            simp [ha, hb, hc, he, hm1d, hm2d, hd1d, hd2d]

/-! ### capture invariants of the fallback regex engine, used for C9 -/

/-- unfolding equation of consume on a literal. -/
theorem consume_lit (p cs : List Char) :
    consume (.lit p) cs =
      if pyStartsWith cs p then [(none, cs.drop p.length)] else [] := rfl

/-- unfolding equation of consume on a digit group. -/
theorem consume_digits_eq (lo hi : Nat) (cs : List Char) :
    consume (.digits lo hi) cs =
      (List.range (min hi (cs.takeWhile isPyDigit).length + 1 - lo)).map (fun i =>
        (some (cs.take (min hi (cs.takeWhile isPyDigit).length - i)),
          cs.drop (min hi (cs.takeWhile isPyDigit).length - i))) := rfl

/-- unfolding equation of consume on a word group. -/
theorem consume_word_eq (cs : List Char) :
    consume .word cs =
      (List.range (cs.takeWhile isPyWord).length).map (fun i =>
        (some (cs.take ((cs.takeWhile isPyWord).length - i)),
          cs.drop ((cs.takeWhile isPyWord).length - i))) := rfl

/-- unfolding equation of consume on mandatory whitespace. -/
theorem consume_sp1 (cs : List Char) :
    consume .sp1 cs =
      (List.range (cs.takeWhile isPySpace).length).map (fun i =>
        (none, cs.drop ((cs.takeWhile isPySpace).length - i))) := rfl

/-- unfolding equation of consume on the optional comma. -/
theorem consume_optComma (cs : List Char) :
    consume .optComma cs =
      match cs with
      | ',' :: r => [(none, r), (none, cs)]
      | _ => [(none, cs)] := rfl

/-- non-capturing pattern elements yield no group. -/
theorem consume_not_cap {t : RTok} (h : isCap t = false) :
    ∀ (cs : List Char) (pr : Option (List Char) × List Char),
      pr ∈ consume t cs → pr.1 = none := by
  intro cs pr hpr
  cases t with
  | lit p =>
    rw [consume_lit] at hpr
    split at hpr
    · simp only [List.mem_singleton] at hpr
      rw [hpr]
    · simp at hpr
  | digits lo hi => simp [isCap] at h
  | word => simp [isCap] at h
  | sp1 =>
    rw [consume_sp1] at hpr
    obtain ⟨i, _, hieq⟩ := List.mem_map.mp hpr
    rw [← hieq]
  | optComma =>
    rw [consume_optComma] at hpr
    split at hpr
    · rcases List.mem_cons.mp hpr with h1 | h1
      · rw [h1]
      · simp only [List.mem_singleton] at h1
        rw [h1]
    · simp only [List.mem_singleton] at hpr
      rw [hpr]

/-- characters taken from within the maximal run satisfying a
predicate satisfy it. -/
theorem take_takeWhile_mem {p : Char → Bool} {cs : List Char} {k : Nat} {c : Char}
    (hk : k ≤ (cs.takeWhile p).length) (hc : c ∈ cs.take k) : p c = true := by
  have heq : cs.take k = (cs.takeWhile p).take k := by
    conv_lhs => rw [← List.takeWhile_append_dropWhile p cs]
    rw [List.take_append_of_le_length hk]
  rw [heq] at hc
  exact List.mem_takeWhile_imp ((List.take_sublist _ _).mem hc)

/-- a digit element captures between lo and hi digit characters. -/
theorem consume_digits {lo hi : Nat} {cs : List Char}
    {pr : Option (List Char) × List Char} (hpr : pr ∈ consume (.digits lo hi) cs) :
    ∃ g, pr.1 = some g ∧ lo ≤ g.length ∧ g.length ≤ hi ∧
      ∀ c ∈ g, isPyDigit c = true := by
  rw [consume_digits_eq] at hpr
  obtain ⟨i, hi_mem, hieq⟩ := List.mem_map.mp hpr
  rw [List.mem_range] at hi_mem
  have hlenle : (cs.takeWhile isPyDigit).length ≤ cs.length :=
    (List.takeWhile_prefix isPyDigit).length_le
  refine ⟨cs.take (min hi (cs.takeWhile isPyDigit).length - i), ?_, ?_, ?_, ?_⟩
  · rw [← hieq]
  · rw [List.length_take]
    omega
  · rw [List.length_take]
    omega
  · intro c hc
    exact take_takeWhile_mem (by omega) hc

/-- a word element captures a nonempty run of word characters. -/
theorem consume_word {cs : List Char} {pr : Option (List Char) × List Char}
    (hpr : pr ∈ consume RTok.word cs) :
    ∃ g, pr.1 = some g ∧ g ≠ [] ∧ ∀ c ∈ g, isPyWord c = true := by
  rw [consume_word_eq] at hpr
  obtain ⟨i, hi_mem, hieq⟩ := List.mem_map.mp hpr
  rw [List.mem_range] at hi_mem
  have hlenle : (cs.takeWhile isPyWord).length ≤ cs.length :=
    (List.takeWhile_prefix isPyWord).length_le
  refine ⟨cs.take ((cs.takeWhile isPyWord).length - i), ?_, ?_, ?_⟩
  · rw [← hieq]
  · have : (cs.take ((cs.takeWhile isPyWord).length - i)).length =
        (cs.takeWhile isPyWord).length - i := by
      rw [List.length_take]
      omega
    intro hnil
    rw [hnil] at this
    simp only [List.length_nil] at this
    omega
  · intro c hc
    exact take_takeWhile_mem (by omega) hc

/-- every match of a pattern produces one group per capturing element,
in order, each satisfying the element invariant. -/
theorem matchSeq_spec :
    ∀ (toks : List RTok) (cs : List Char) (gs : List (List Char)),
      gs ∈ matchSeq toks cs → List.Forall₂ capOk (toks.filter isCap) gs := by
  intro toks
  induction toks with
  | nil =>
    intro cs gs hgs
    simp only [matchSeq, List.mem_singleton] at hgs
    rw [hgs]
    exact List.Forall₂.nil
  | cons t ts ih =>
    intro cs gs hgs
    unfold matchSeq at hgs
    obtain ⟨pr, hpr, hgs2⟩ := List.mem_flatMap.mp hgs
    obtain ⟨gs', hgs', heq⟩ := List.mem_map.mp hgs2
    by_cases hcap : isCap t = true
    · cases t with
      | digits lo hi =>
        obtain ⟨g, hg1, hglo, hghi, hgd⟩ := consume_digits hpr
        rw [hg1] at heq
        rw [List.filter_cons_of_pos (by simp [isCap]), ← heq]
        exact List.Forall₂.cons ⟨hglo, hghi, hgd⟩ (ih pr.2 gs' hgs')
      | word =>
        obtain ⟨g, hg1, hgne, hgw⟩ := consume_word hpr
        rw [hg1] at heq
        rw [List.filter_cons_of_pos (by simp [isCap]), ← heq]
        exact List.Forall₂.cons ⟨hgne, hgw⟩ (ih pr.2 gs' hgs')
      | lit p => simp [isCap] at hcap
      | sp1 => simp [isCap] at hcap
      | optComma => simp [isCap] at hcap
    · have hnone := consume_not_cap (by simpa using hcap) cs pr hpr
      rw [hnone] at heq
      rw [List.filter_cons_of_neg (by simp [hcap]), ← heq]
      exact ih pr.2 gs' hgs'

/-- a successful search produced its groups from an actual match. -/
theorem searchTk_mem :
    ∀ (toks : List RTok) (l : List Char) (gs : List (List Char)),
      searchTk toks l = some gs → ∃ t, gs ∈ matchSeq toks t := by
  intro toks l
  induction l with
  | nil =>
    intro gs h
    unfold searchTk at h
    cases hm : matchSeq toks [] with
    | nil => rw [hm] at h; simp at h
    | cons g rest =>
      rw [hm] at h
      simp only [List.head?_cons, Option.some.injEq] at h
      exact ⟨[], by rw [hm, ← h]; exact List.mem_cons_self g rest⟩
  | cons c cs ih =>
    intro gs h
    unfold searchTk at h
    cases hm : (matchSeq toks (c :: cs)).head? with
    | some g =>
      rw [hm] at h
      simp only [Option.some.injEq] at h
      refine ⟨c :: cs, ?_⟩
      cases hml : matchSeq toks (c :: cs) with
      | nil => rw [hml] at hm; simp at hm
      | cons a rest =>
        rw [hml] at hm
        simp only [List.head?_cons, Option.some.injEq] at hm
        rw [← h, ← hm]
        exact List.mem_cons_self a rest
    | none =>
      rw [hm] at h
      exact ih gs h

/-- decomposition of a three-element capture list. -/
theorem forall2_three {R : RTok → List Char → Prop} {t1 t2 t3 : RTok}
    {gs : List (List Char)} (h : List.Forall₂ R [t1, t2, t3] gs) :
    ∃ g1 g2 g3, gs = [g1, g2, g3] ∧ R t1 g1 ∧ R t2 g2 ∧ R t3 g3 := by
  rw [List.forall₂_cons_left_iff] at h
  obtain ⟨g1, u1, h1, h, hu⟩ := h
  rw [List.forall₂_cons_left_iff] at h
  obtain ⟨g2, u2, h2, h, hu2⟩ := h
  rw [List.forall₂_cons_left_iff] at h
  obtain ⟨g3, u3, h3, h, hu3⟩ := h
  rw [List.forall₂_nil_left_iff] at h
  subst h hu3 hu2 hu
  exact ⟨g1, g2, g3, rfl, h1, h2, h3⟩

/-- a formatter call with numeric day, numeric month and four-digit
year groups is date-shaped. -/
theorem shape_digit_month {gd gm gy : List Char}
    (hd : capOk (.digits 1 2) gd) (hm : capOk (.digits 1 2) gm)
    (hy : capOk (.digits 4 4) gy) :
    isShapeYMD (fmtYMD gy gm gd) = true := by
  obtain ⟨hd1, hd2, hd3⟩ := hd
  obtain ⟨hm1, hm2, hm3⟩ := hm
  obtain ⟨hy1, hy2, hy3⟩ := hy
  exact shape_fmtYMD (by omega) hy3 hm1 hm2 hm3 hd1 hd2 hd3

/-- a formatter call with numeric day, looked-up month name and
four-digit year groups is date-shaped. -/
theorem shape_word_month (gw : List Char) {gd gy : List Char}
    (hd : capOk (.digits 1 2) gd) (hy : capOk (.digits 4 4) gy) :
    isShapeYMD (fmtYMD gy (mesLookup gw) gd) = true := by
  obtain ⟨hd1, hd2, hd3⟩ := hd
  obtain ⟨hy1, hy2, hy3⟩ := hy
  obtain ⟨hm1, hm2, hm3⟩ := mesLookup_digits gw
  exact shape_fmtYMD (by omega) hy3 hm1 hm2 hm3 hd1 hd2 hd3

/-- the strftime rendering coincides with the formatter on the decimal
renderings of the date components. -/
theorem strftimeYMD_eq_fmt (d : PyDate) :
    strftimeYMD d = fmtYMD (natStr d.year) (natStr d.month) (natStr d.day) := rfl

/-- upper bound on month lengths. -/
theorem daysInMonth_le (y m : Nat) : daysInMonth y m ≤ 31 := by
  unfold daysInMonth
  split
  · split <;> omega
  · split <;> omega

/-- C9 (amended): parse_date_any never raises and returns either
absent or a dash-joined date-shaped string of the form four digits,
dash, two digits, dash, two digits; when the fuzzy oracle succeeds on a
calendar date with a four-digit year the result renders that date, but
the fallback patterns perform no calendar validation, so the returned
string need not denote an existing calendar date. -/
theorem C9_parse_date_any_amended :
    ∀ (fuzzy : String → Option PyDate) (s : String),
      (∀ t d, fuzzy t = some d → isValidDate d.year d.month d.day = true ∧ 1000 ≤ d.year) →
      parse_date_any fuzzy s = none ∨
        ∃ out, parse_date_any fuzzy s = some out ∧ isShapeYMD out = true := by
  intro fuzzy s hf
  unfold parse_date_any
  by_cases he : s.data = []
  · rw [if_pos he]
    exact Or.inl rfl
  · rw [if_neg he]
    dsimp only
    cases hfz : fuzzy ⟨pyStrip s.data⟩ with
    | some d =>
      right
      refine ⟨strftimeYMD d, rfl, ?_⟩
      obtain ⟨hval, hy1000⟩ := hf ⟨pyStrip s.data⟩ d hfz
      unfold isValidDate at hval
      simp only [Bool.and_eq_true, decide_eq_true_eq] at hval
      obtain ⟨⟨⟨⟨⟨h1, h2⟩, h3⟩, h4⟩, h5⟩, h6⟩ := hval
      have hdm := daysInMonth_le d.year d.month
      rw [strftimeYMD_eq_fmt]
      exact shape_fmtYMD (natStr_len4 hy1000 h2) (natStr_digits _)
        (natStr_len_small h3 (by omega)).1 (natStr_len_small h3 (by omega)).2
        (natStr_digits _)
        (natStr_len_small h5 (by omega)).1 (natStr_len_small h5 (by omega)).2
        (natStr_digits _)
    | none =>
      cases hp0 : searchTk patDMYslash (lowerList (pyStrip s.data)) with
      | some gs =>
        right
        refine ⟨_, rfl, ?_⟩
        obtain ⟨t, ht⟩ := searchTk_mem _ _ _ hp0
        have hfa := matchSeq_spec patDMYslash t gs ht
        obtain ⟨g1, g2, g3, rfl, hc1, hc2, hc3⟩ := forall2_three hfa
        simpa only [grp, List.getD] using shape_digit_month hc1 hc2 hc3
      | none =>
        cases hp1 : searchTk patISO (lowerList (pyStrip s.data)) with
        | some gs =>
          right
          refine ⟨_, rfl, ?_⟩
          obtain ⟨t, ht⟩ := searchTk_mem _ _ _ hp1
          have hfa := matchSeq_spec patISO t gs ht
          obtain ⟨g1, g2, g3, rfl, hc1, hc2, hc3⟩ := forall2_three hfa
          simpa only [grp, List.getD] using shape_digit_month hc3 hc2 hc1
        | none =>
          cases hp2 : searchTk patPT (lowerList (pyStrip s.data)) with
          | some gs =>
            right
            refine ⟨_, rfl, ?_⟩
            obtain ⟨t, ht⟩ := searchTk_mem _ _ _ hp2
            have hfa := matchSeq_spec patPT t gs ht
            obtain ⟨g1, g2, g3, rfl, hc1, hc2, hc3⟩ := forall2_three hfa
            simpa only [grp, List.getD] using shape_word_month g2 hc1 hc3
          | none =>
            cases hp3 : searchTk patMonthFirst (lowerList (pyStrip s.data)) with
            | some gs =>
              right
              refine ⟨_, rfl, ?_⟩
              obtain ⟨t, ht⟩ := searchTk_mem _ _ _ hp3
              have hfa := matchSeq_spec patMonthFirst t gs ht
              obtain ⟨g1, g2, g3, rfl, hc1, hc2, hc3⟩ := forall2_three hfa
              simpa only [grp, List.getD] using shape_word_month g1 hc2 hc3
            | none =>
              cases hp4 : searchTk patDayFirst (lowerList (pyStrip s.data)) with
              | some gs =>
                right
                refine ⟨_, rfl, ?_⟩
                obtain ⟨t, ht⟩ := searchTk_mem _ _ _ hp4
                have hfa := matchSeq_spec patDayFirst t gs ht
                obtain ⟨g1, g2, g3, rfl, hc1, hc2, hc3⟩ := forall2_three hfa
                simpa only [grp, List.getD] using shape_word_month g2 hc1 hc3
              | none => exact Or.inl rfl

/-- C9 witness: the amended theorem instantiated with an oracle that
always fails and a concrete slash date, together with the concrete
value the fallback produces there. -/
theorem C9_parse_date_any_amended_witness :
    (parse_date_any (fun _ => none) "01/02/2025" = none ∨
      ∃ out, parse_date_any (fun _ => none) "01/02/2025" = some out ∧
        isShapeYMD out = true) ∧
    parse_date_any (fun _ => none) "01/02/2025" = some "2025-02-01" :=
  ⟨C9_parse_date_any_amended (fun _ => none) "01/02/2025"
    (fun _ _ h => Option.noConfusion h), by decide⟩

/-- C9 counterexample: when the fuzzy parse fails, the first fallback
pattern accepts 99/99/2025 and the code emits 2025-99-99, a string in
the YYYY-MM-DD shape that denotes no calendar date, refuting the claim
that every present result is a calendar date. -/
theorem C9_counterexample :
    parse_date_any (fun _ => none) "99/99/2025" = some "2025-99-99" ∧
    isCalendarYMD "2025-99-99" = false :=
  ⟨by decide, by decide⟩

end Criativos
